import Mathlib

/-!
Shallow embedding of the core of `anagrius/elm-language-server`:
the version/constraint algebra and the dependency solver from
`src/util/elmUtils.ts`, the hover handler from
`src/providers/hoverProvider.ts`, and the move-refactoring handlers from
`src/providers/handlers/moveRefactoringHandler.ts`, together with proofs
of the specification's claims about them.

Machine numbers are modelled as `Int` (JavaScript version components are
small integers here; `NaN` is modelled as `Option.none`), strings as
Lean `String`, and JavaScript `Map`s as insertion-ordered association
lists.
-/

namespace ElmLS

/-- Helper for `jsSplit`: split a character list at every `'.'`,
accumulating the current component in reverse. -/
def splitDotAux : List Char → List Char → List String
  | [], acc => [String.mk acc.reverse]
  | c :: cs, acc =>
    if c = '.' then String.mk acc.reverse :: splitDotAux cs [] else splitDotAux cs (c :: acc)

/-- JavaScript `s.split(".")` as used by `versionCompare` and
`parseVersion` (`elmUtils.ts:236,292-293`): `""` splits to `[""]`,
separators at the ends produce empty components, exactly as in JS. -/
def jsSplit (s : String) : List String := splitDotAux s.data []

/-- Decimal value of a digit list. -/
def digitsVal (l : List Char) : Int :=
  l.foldl (fun acc c => 10 * acc + Int.ofNat (c.toNat - 48)) 0

/-- JavaScript `Number(s)` restricted to the strings that occur as version
components: a nonempty digit string parses to its value; anything else
(including the `undefined` produced by indexing past the end of the split)
is `NaN`, modelled as `none`.  Real `Number` also accepts signs,
whitespace and fractions, which never occur in version strings produced by
`parseVersion`. -/
def jsNumber (s : String) : Option Int :=
  if s.data ≠ [] ∧ s.data.all Char.isDigit then some (digitsVal s.data) else none

/-- JavaScript `>` on possibly-`NaN` numbers: every comparison involving
`NaN` is false. -/
def jsGt : Option Int → Option Int → Bool
  | some a, some b => a > b
  | _, _ => false

/-- `IVersion` from `elmWorkspace.ts`: the numeric triple plus the
original string form. -/
structure IVersion where
  major : Int
  minor : Int
  patch : Int
  string : String
deriving DecidableEq, Repr

/-- The operator type `"<" | "<="` of `IConstraint`. -/
inductive ConstraintOp where
  | lt
  | le
deriving DecidableEq, Repr

/-- `IConstraint` from `elmWorkspace.ts`. -/
structure IConstraint where
  lower : IVersion
  upper : IVersion
  lowerOperator : ConstraintOp
  upperOperator : ConstraintOp
deriving DecidableEq, Repr

/-- One iteration of the loop in `versionCompare` (`elmUtils.ts:294-303`):
`some 1` / `some (-1)` models the early `return`, `none` means the loop
continues with the next component. -/
def versionCompareStep (na nb : Option Int) : Option Int :=
  if jsGt na nb then some 1 else if jsGt nb na then some (-1) else none

/-- `versionCompare` (`elmUtils.ts:291-305`), with `pa := jsSplit a.string`
and `pb := jsSplit b.string` inlined.  Note that the source splits
`a.string` and `b.string` and compares the parsed components; the numeric
triple fields are not consulted. -/
def versionCompare (a b : IVersion) : Int :=
  match versionCompareStep ((jsSplit a.string)[0]?.bind jsNumber)
      ((jsSplit b.string)[0]?.bind jsNumber) with
  | some r => r
  | none =>
    match versionCompareStep ((jsSplit a.string)[1]?.bind jsNumber)
        ((jsSplit b.string)[1]?.bind jsNumber) with
    | some r => r
    | none =>
      match versionCompareStep ((jsSplit a.string)[2]?.bind jsNumber)
          ((jsSplit b.string)[2]?.bind jsNumber) with
      | some r => r
      | none => 0

/-- `filterSemver` (`elmUtils.ts:277-289`). -/
def filterSemver (lower upper : IVersion) (op : ConstraintOp) : Bool :=
  let currentCompare := versionCompare lower upper
  match op with
  | .le => currentCompare == -1 || currentCompare == 0
  | .lt => currentCompare == -1

/-- `versionSatifiesConstraint` (`elmUtils.ts:267-275`); the typo is the
source's. -/
def versionSatifiesConstraint (version : IVersion) (constraint : IConstraint) : Bool :=
  filterSemver constraint.lower version constraint.lowerOperator &&
    filterSemver version constraint.upper constraint.upperOperator

/-- The local `merge` helper of `constraintIntersect`
(`elmUtils.ts:311-313`). -/
def mergeOp (op1 op2 : ConstraintOp) : ConstraintOp :=
  if op1 = .lt || op2 = .lt then .lt else .le

/-- `constraintIntersect` (`elmUtils.ts:307-370`).  The source `switch`es
on `versionCompare`, which only ever returns `-1`, `0` or `1`
(`versionCompare_mem` below), so the TS branch returning `undefined` when
one of the four locals stays unassigned is unreachable and the nested
conditionals below cover exactly the three cases of each `switch`. -/
def constraintIntersect (a b : IConstraint) : Option IConstraint :=
  let lowerCompare := versionCompare a.lower b.lower
  let newLower := if lowerCompare = -1 then b.lower else a.lower
  let newLowerOp :=
    if lowerCompare = -1 then b.lowerOperator
    else if lowerCompare = 0 then mergeOp a.lowerOperator b.lowerOperator
    else a.lowerOperator
  let upperCompare := versionCompare a.upper b.upper
  let newUpper := if upperCompare = 1 then b.upper else a.upper
  let newUpperOp :=
    if upperCompare = -1 then a.upperOperator
    else if upperCompare = 0 then mergeOp a.upperOperator b.upperOperator
    else b.upperOperator
  if versionCompare newLower newUpper ≠ -1 then none
  else some ⟨newLower, newUpper, newLowerOp, newUpperOp⟩

/-- Lifting of `versionSatifiesConstraint` to a possibly-absent
constraint, following the claim's words: an absent intersection satisfies
no version. -/
def satisfiesOpt (v : IVersion) : Option IConstraint → Bool
  | some c => versionSatifiesConstraint v c
  | none => false

/-- Lifting of `constraintIntersect` to possibly-absent arguments (an
absent operand yields an absent intersection), used to state
associativity. -/
def constraintIntersectOpt : Option IConstraint → Option IConstraint → Option IConstraint
  | some a, some b => constraintIntersect a b
  | _, _ => none

/-- Well-formedness of a version record: the carried string form is the
dotted rendering of the numeric triple, i.e. splitting the string yields
exactly three components that parse back to `major`, `minor`, `patch`.
This is the data-model invariant of the spec's **Version** (`parseVersion`
establishes it for every version it builds from a `maj.min.pat` string). -/
def wfV (v : IVersion) : Bool :=
  (jsSplit v.string).map jsNumber == [some v.major, some v.minor, some v.patch]

/-- Well-formedness of a constraint: both bounds are well-formed. -/
def wfC (c : IConstraint) : Bool := wfV c.lower && wfV c.upper

/-- The spec's comparison, written from its words: lexicographic on the
numeric triple `(major, minor, patch)`, returning `-1`, `0` or `1`. -/
def specVersionCompare (a b : IVersion) : Int :=
  if a.major > b.major then 1
  else if b.major > a.major then -1
  else if a.minor > b.minor then 1
  else if b.minor > a.minor then -1
  else if a.patch > b.patch then 1
  else if b.patch > a.patch then -1
  else 0

theorem versionCompareStep_mem (na nb : Option Int) :
    versionCompareStep na nb = none ∨ versionCompareStep na nb = some 1 ∨
      versionCompareStep na nb = some (-1) := by
  unfold versionCompareStep
  split_ifs <;> simp

theorem jsGt_some_some (x y : Int) : jsGt (some x) (some y) = decide (x > y) := rfl

theorem versionCompareStep_some_some (x y : Int) :
    versionCompareStep (some x) (some y) =
      if x > y then some 1 else if y > x then some (-1) else none := by
  unfold versionCompareStep
  simp [jsGt_some_some]

/-- `versionCompare` only ever returns `-1`, `0` or `1`. -/
theorem versionCompare_mem (a b : IVersion) :
    versionCompare a b = -1 ∨ versionCompare a b = 0 ∨ versionCompare a b = 1 := by
  unfold versionCompare
  rcases versionCompareStep_mem ((jsSplit a.string)[0]?.bind jsNumber)
      ((jsSplit b.string)[0]?.bind jsNumber) with h0 | h0 | h0 <;> rw [h0]
  rotate_left
  · simp
  · simp
  rcases versionCompareStep_mem ((jsSplit a.string)[1]?.bind jsNumber)
      ((jsSplit b.string)[1]?.bind jsNumber) with h1 | h1 | h1 <;> rw [h1]
  rotate_left
  · simp
  · simp
  rcases versionCompareStep_mem ((jsSplit a.string)[2]?.bind jsNumber)
      ((jsSplit b.string)[2]?.bind jsNumber) with h2 | h2 | h2 <;> rw [h2] <;> simp

theorem specVersionCompare_mem (a b : IVersion) :
    specVersionCompare a b = -1 ∨ specVersionCompare a b = 0 ∨
      specVersionCompare a b = 1 := by
  unfold specVersionCompare
  split_ifs <;> simp

/-- On well-formed versions the source's string-based comparison agrees
with the spec's triple-lexicographic comparison. -/
theorem versionCompare_eq_spec {a b : IVersion} (ha : wfV a = true) (hb : wfV b = true) :
    versionCompare a b = specVersionCompare a b := by
  unfold wfV at ha hb
  rw [beq_iff_eq] at ha hb
  rcases la : jsSplit a.string with _ | ⟨a0, ta⟩ <;> rw [la] at ha
  · simp at ha
  rcases ta with _ | ⟨a1, ta2⟩
  · simp at ha
  rcases ta2 with _ | ⟨a2, ta3⟩
  · simp at ha
  rcases ta3 with _ | ⟨a3, _⟩
  swap
  · simp at ha
  rcases lb : jsSplit b.string with _ | ⟨b0, tb⟩ <;> rw [lb] at hb
  · simp at hb
  rcases tb with _ | ⟨b1, tb2⟩
  · simp at hb
  rcases tb2 with _ | ⟨b2, tb3⟩
  · simp at hb
  rcases tb3 with _ | ⟨b3, _⟩
  swap
  · simp at hb
  simp only [List.map_cons, List.map_nil, List.cons.injEq, and_true] at ha hb
  obtain ⟨ha0, ha1, ha2⟩ := ha
  obtain ⟨hb0, hb1, hb2⟩ := hb
  unfold versionCompare
  rw [la, lb]
  simp only [List.getElem?_cons_zero, List.getElem?_cons_succ, Option.some_bind,
    ha0, ha1, ha2, hb0, hb1, hb2]
  have hs : ∀ x y : Int, x < y → versionCompareStep (some x) (some y) = some (-1) := by
    intro x y h
    rw [versionCompareStep_some_some, if_neg (by omega), if_pos (by omega)]
  have hg : ∀ x y : Int, y < x → versionCompareStep (some x) (some y) = some 1 := by
    intro x y h
    rw [versionCompareStep_some_some, if_pos (by omega)]
  have he : ∀ x : Int, versionCompareStep (some x) (some x) = none := by
    intro x
    rw [versionCompareStep_some_some, if_neg (by omega), if_neg (by omega)]
  rcases lt_trichotomy a.major b.major with h1 | h1 | h1
  · rw [hs _ _ h1]
    simp only [specVersionCompare]
    split_ifs <;> omega
  · rw [h1, he]
    rcases lt_trichotomy a.minor b.minor with h2 | h2 | h2
    · rw [hs _ _ h2]
      simp only [specVersionCompare]
      split_ifs <;> omega
    · rw [h2, he]
      rcases lt_trichotomy a.patch b.patch with h3 | h3 | h3
      · rw [hs _ _ h3]
        simp only [specVersionCompare]
        split_ifs <;> omega
      · rw [h3, he]
        simp only [specVersionCompare]
        split_ifs <;> omega
      · rw [hg _ _ h3]
        simp only [specVersionCompare]
        split_ifs <;> omega
    · rw [hg _ _ h2]
      simp only [specVersionCompare]
      split_ifs <;> omega
  · rw [hg _ _ h1]
    simp only [specVersionCompare]
    split_ifs <;> omega

/-- Strict lexicographic order on the numeric triple. -/
def lexLt (a b : IVersion) : Prop :=
  a.major < b.major ∨
    (a.major = b.major ∧
      (a.minor < b.minor ∨ (a.minor = b.minor ∧ a.patch < b.patch)))

/-- Value equality of the numeric triples (the string forms may differ). -/
def lexEq (a b : IVersion) : Prop :=
  a.major = b.major ∧ a.minor = b.minor ∧ a.patch = b.patch

instance (a b : IVersion) : Decidable (lexLt a b) := by unfold lexLt; infer_instance

instance (a b : IVersion) : Decidable (lexEq a b) := by unfold lexEq; infer_instance

theorem specVersionCompare_eq_neg_one_iff (a b : IVersion) :
    specVersionCompare a b = -1 ↔ lexLt a b := by
  unfold specVersionCompare lexLt
  split_ifs <;> constructor <;> intro h <;> first | exact h.elim | omega

theorem specVersionCompare_eq_one_iff (a b : IVersion) :
    specVersionCompare a b = 1 ↔ lexLt b a := by
  unfold specVersionCompare lexLt
  split_ifs <;> constructor <;> intro h <;> first | exact h.elim | omega

theorem specVersionCompare_eq_zero_iff (a b : IVersion) :
    specVersionCompare a b = 0 ↔ lexEq a b := by
  unfold specVersionCompare lexEq
  split_ifs <;> constructor <;> intro h <;> first | exact h.elim | omega

/-- The lower-bound test `lower ⦗op⦘ v` at the value level. -/
def lowOk (x : IVersion) (op : ConstraintOp) (v : IVersion) : Prop :=
  lexLt x v ∨ (op = ConstraintOp.le ∧ lexEq x v)

/-- The upper-bound test `v ⦗op⦘ upper` at the value level. -/
def upOk (v : IVersion) (x : IVersion) (op : ConstraintOp) : Prop :=
  lexLt v x ∨ (op = ConstraintOp.le ∧ lexEq v x)

/-- The spec's membership predicate `lower op1 v ∧ v op2 upper`. -/
def specSatisfies (v : IVersion) (c : IConstraint) : Prop :=
  lowOk c.lower c.lowerOperator v ∧ upOk v c.upper c.upperOperator

instance (x : IVersion) (op : ConstraintOp) (v : IVersion) : Decidable (lowOk x op v) := by
  unfold lowOk; infer_instance

instance (v x : IVersion) (op : ConstraintOp) : Decidable (upOk v x op) := by
  unfold upOk; infer_instance

instance (v : IVersion) (c : IConstraint) : Decidable (specSatisfies v c) := by
  unfold specSatisfies; infer_instance

theorem filterSemver_iff_of_wf {x y : IVersion} (hx : wfV x = true) (hy : wfV y = true)
    (op : ConstraintOp) :
    filterSemver x y op = true ↔ lowOk x op y := by
  unfold filterSemver lowOk
  rw [versionCompare_eq_spec hx hy]
  cases op
  · simp only [beq_iff_eq, specVersionCompare_eq_neg_one_iff]
    simp
  · simp only [Bool.or_eq_true, beq_iff_eq, specVersionCompare_eq_neg_one_iff,
      specVersionCompare_eq_zero_iff]
    simp

/-- On well-formed data, the source's satisfaction test agrees with the
spec's membership predicate. -/
theorem versionSatifiesConstraint_iff_of_wf {v : IVersion} {c : IConstraint}
    (hc : wfC c = true) (hv : wfV v = true) :
    versionSatifiesConstraint v c = true ↔ specSatisfies v c := by
  obtain ⟨hl, hu⟩ := Bool.and_eq_true_iff.mp hc
  unfold versionSatifiesConstraint specSatisfies
  rw [Bool.and_eq_true_iff, filterSemver_iff_of_wf hl hv, filterSemver_iff_of_wf hv hu]
  unfold lowOk upOk
  tauto

/-- Spec intersection, lower bound: the maximum of the two lower bounds
(ties take the left record, as the source does). -/
def specNewLower (a b : IConstraint) : IVersion :=
  if specVersionCompare a.lower b.lower = -1 then b.lower else a.lower

/-- Spec intersection, lower operator: the operator of the larger bound,
merged (strict wins) on ties. -/
def specNewLowerOp (a b : IConstraint) : ConstraintOp :=
  if specVersionCompare a.lower b.lower = -1 then b.lowerOperator
  else if specVersionCompare a.lower b.lower = 0 then mergeOp a.lowerOperator b.lowerOperator
  else a.lowerOperator

/-- Spec intersection, upper bound: the minimum of the two upper bounds
(ties take the left record, as the source does). -/
def specNewUpper (a b : IConstraint) : IVersion :=
  if specVersionCompare a.upper b.upper = 1 then b.upper else a.upper

/-- Spec intersection, upper operator: the operator of the smaller bound,
merged (strict wins) on ties. -/
def specNewUpperOp (a b : IConstraint) : ConstraintOp :=
  if specVersionCompare a.upper b.upper = -1 then a.upperOperator
  else if specVersionCompare a.upper b.upper = 0 then mergeOp a.upperOperator b.upperOperator
  else b.upperOperator

/-- The spec's intersection, written from its words (§4.1): new lower =
max of lowers with the strict operator winning on equal bounds,
symmetrically for the upper, `None` if `lower ≥ upper`. -/
def specConstraintIntersect (a b : IConstraint) : Option IConstraint :=
  if specVersionCompare (specNewLower a b) (specNewUpper a b) ≠ -1 then none
  else some ⟨specNewLower a b, specNewUpper a b, specNewLowerOp a b, specNewUpperOp a b⟩

/-- `constraintIntersect` with its local bindings expanded. -/
theorem constraintIntersect_def (a b : IConstraint) :
    constraintIntersect a b =
      (if versionCompare (if versionCompare a.lower b.lower = -1 then b.lower else a.lower)
          (if versionCompare a.upper b.upper = 1 then b.upper else a.upper) ≠ -1 then none
       else
         some ⟨if versionCompare a.lower b.lower = -1 then b.lower else a.lower,
           if versionCompare a.upper b.upper = 1 then b.upper else a.upper,
           if versionCompare a.lower b.lower = -1 then b.lowerOperator
           else if versionCompare a.lower b.lower = 0 then mergeOp a.lowerOperator b.lowerOperator
           else a.lowerOperator,
           if versionCompare a.upper b.upper = -1 then a.upperOperator
           else if versionCompare a.upper b.upper = 0 then mergeOp a.upperOperator b.upperOperator
           else b.upperOperator⟩) := rfl

/-- Refinement: on well-formed constraints the source's intersection is
exactly the spec's intersection. -/
theorem constraintIntersect_eq_spec {a b : IConstraint}
    (ha : wfC a = true) (hb : wfC b = true) :
    constraintIntersect a b = specConstraintIntersect a b := by
  obtain ⟨hal, hau⟩ := Bool.and_eq_true_iff.mp ha
  obtain ⟨hbl, hbu⟩ := Bool.and_eq_true_iff.mp hb
  rw [constraintIntersect_def]
  unfold specConstraintIntersect specNewLower specNewLowerOp specNewUpper specNewUpperOp
  rw [versionCompare_eq_spec hal hbl, versionCompare_eq_spec hau hbu]
  rcases specVersionCompare_mem a.lower b.lower with hlc | hlc | hlc <;>
    rcases specVersionCompare_mem a.upper b.upper with huc | huc | huc <;>
      simp only [hlc, huc] <;> norm_num <;>
        first
          | rw [versionCompare_eq_spec hal hau]
          | rw [versionCompare_eq_spec hal hbu]
          | rw [versionCompare_eq_spec hbl hau]
          | rw [versionCompare_eq_spec hbl hbu]

theorem mergeOp_lt_left (op : ConstraintOp) : mergeOp .lt op = .lt := by
  simp [mergeOp]

theorem mergeOp_lt_right (op : ConstraintOp) : mergeOp op .lt = .lt := by
  cases op <;> simp [mergeOp]

theorem mergeOp_le_le : mergeOp .le .le = .le := by simp [mergeOp]

theorem lowOk_lt (x v : IVersion) : lowOk x .lt v ↔ lexLt x v := by simp [lowOk]

theorem lowOk_le (x v : IVersion) : lowOk x .le v ↔ lexLt x v ∨ lexEq x v := by
  simp [lowOk]

theorem upOk_lt (v x : IVersion) : upOk v x .lt ↔ lexLt v x := by simp [upOk]

theorem upOk_le (v x : IVersion) : upOk v x .le ↔ lexLt v x ∨ lexEq v x := by
  simp [upOk]

/-- The merged lower bound of the intersection is passed by `v` exactly
when both original lower bounds are. -/
theorem lowOk_intersect_iff (c1 c2 : IConstraint) (v : IVersion) :
    lowOk (specNewLower c1 c2) (specNewLowerOp c1 c2) v ↔
      lowOk c1.lower c1.lowerOperator v ∧ lowOk c2.lower c2.lowerOperator v := by
  unfold specNewLower specNewLowerOp
  rcases specVersionCompare_mem c1.lower c2.lower with h | h | h <;> simp only [h] <;> norm_num
  · have hlt := (specVersionCompare_eq_neg_one_iff c1.lower c2.lower).mp h
    intro hh
    left
    rcases hh with hh | ⟨-, hh⟩ <;> (simp only [lexLt, lexEq] at hlt hh ⊢; omega)
  · have heq := (specVersionCompare_eq_zero_iff c1.lower c2.lower).mp h
    cases hop1 : c1.lowerOperator <;> cases hop2 : c2.lowerOperator <;>
      simp only [mergeOp_lt_left, mergeOp_lt_right, mergeOp_le_le, lowOk_lt, lowOk_le] <;>
        (simp only [lexLt, lexEq] at heq ⊢; constructor <;> intro hh <;> omega)
  · have hgt := (specVersionCompare_eq_one_iff c1.lower c2.lower).mp h
    intro hh
    left
    rcases hh with hh | ⟨-, hh⟩ <;> (simp only [lexLt, lexEq] at hgt hh ⊢; omega)

/-- The merged upper bound of the intersection is passed by `v` exactly
when both original upper bounds are. -/
theorem upOk_intersect_iff (c1 c2 : IConstraint) (v : IVersion) :
    upOk v (specNewUpper c1 c2) (specNewUpperOp c1 c2) ↔
      upOk v c1.upper c1.upperOperator ∧ upOk v c2.upper c2.upperOperator := by
  unfold specNewUpper specNewUpperOp
  rcases specVersionCompare_mem c1.upper c2.upper with h | h | h <;> simp only [h] <;> norm_num
  · have hlt := (specVersionCompare_eq_neg_one_iff c1.upper c2.upper).mp h
    intro hh
    left
    rcases hh with hh | ⟨-, hh⟩ <;> (simp only [lexLt, lexEq] at hlt hh ⊢; omega)
  · have heq := (specVersionCompare_eq_zero_iff c1.upper c2.upper).mp h
    cases hop1 : c1.upperOperator <;> cases hop2 : c2.upperOperator <;>
      simp only [mergeOp_lt_left, mergeOp_lt_right, mergeOp_le_le, upOk_lt, upOk_le] <;>
        (simp only [lexLt, lexEq] at heq ⊢; constructor <;> intro hh <;> omega)
  · have hgt := (specVersionCompare_eq_one_iff c1.upper c2.upper).mp h
    intro hh
    left
    rcases hh with hh | ⟨-, hh⟩ <;> (simp only [lexLt, lexEq] at hgt hh ⊢; omega)

/-- Value-level soundness and completeness of a defined intersection. -/
theorem specSatisfies_intersect_iff {c1 c2 i : IConstraint} (v : IVersion)
    (hi : specConstraintIntersect c1 c2 = some i) :
    specSatisfies v i ↔ specSatisfies v c1 ∧ specSatisfies v c2 := by
  unfold specConstraintIntersect at hi
  split at hi
  · cases hi
  · injection hi with hi
    subst hi
    show lowOk (specNewLower c1 c2) (specNewLowerOp c1 c2) v ∧
        upOk v (specNewUpper c1 c2) (specNewUpperOp c1 c2) ↔ _
    rw [lowOk_intersect_iff, upOk_intersect_iff]
    unfold specSatisfies
    tauto

/-- A defined spec intersection of well-formed constraints is
well-formed: its bounds come from the operands. -/
theorem specConstraintIntersect_wf {c1 c2 i : IConstraint}
    (h1 : wfC c1 = true) (h2 : wfC c2 = true)
    (hi : specConstraintIntersect c1 c2 = some i) : wfC i = true := by
  obtain ⟨h1l, h1u⟩ := Bool.and_eq_true_iff.mp h1
  obtain ⟨h2l, h2u⟩ := Bool.and_eq_true_iff.mp h2
  unfold specConstraintIntersect at hi
  split at hi
  · cases hi
  · injection hi with hi
    subst hi
    unfold wfC
    rw [Bool.and_eq_true_iff]
    constructor
    · show wfV (specNewLower c1 c2) = true
      unfold specNewLower
      split <;> assumption
    · show wfV (specNewUpper c1 c2) = true
      unfold specNewUpper
      split <;> assumption

/-- On well-formed data: `v` satisfies a defined intersection iff it
satisfies both operands. -/
theorem intersect_sat_iff {c1 c2 i : IConstraint} {v : IVersion}
    (h1 : wfC c1 = true) (h2 : wfC c2 = true) (hv : wfV v = true)
    (hi : constraintIntersect c1 c2 = some i) :
    versionSatifiesConstraint v i = true ↔
      versionSatifiesConstraint v c1 = true ∧ versionSatifiesConstraint v c2 = true := by
  rw [constraintIntersect_eq_spec h1 h2] at hi
  rw [versionSatifiesConstraint_iff_of_wf (specConstraintIntersect_wf h1 h2 hi) hv,
    versionSatifiesConstraint_iff_of_wf h1 hv, versionSatifiesConstraint_iff_of_wf h2 hv]
  exact specSatisfies_intersect_iff v hi

/-- Claim C1, counterexample: for the point constraint
`1.0.0 <= v <= 1.0.0`, the version `1.0.0` satisfies both operands but
`constraintIntersect` returns `undefined` (the source rejects any
intersection whose bounds compare `>= `), so the claimed equivalence fails
at this input. -/
theorem C1_counterexample :
    ¬ (satisfiesOpt ⟨1, 0, 0, "1.0.0"⟩
          (constraintIntersect ⟨⟨1, 0, 0, "1.0.0"⟩, ⟨1, 0, 0, "1.0.0"⟩, .le, .le⟩
            ⟨⟨1, 0, 0, "1.0.0"⟩, ⟨1, 0, 0, "1.0.0"⟩, .le, .le⟩) = true ↔
        versionSatifiesConstraint ⟨1, 0, 0, "1.0.0"⟩
            ⟨⟨1, 0, 0, "1.0.0"⟩, ⟨1, 0, 0, "1.0.0"⟩, .le, .le⟩ = true ∧
          versionSatifiesConstraint ⟨1, 0, 0, "1.0.0"⟩
            ⟨⟨1, 0, 0, "1.0.0"⟩, ⟨1, 0, 0, "1.0.0"⟩, .le, .le⟩ = true) := by
  decide

/-- Claim C1, amended: for well-formed constraints and versions, whenever
`constraintIntersect c1 c2` is defined, a version satisfies the
intersection iff it satisfies both `c1` and `c2`.  (When the intersection
is absent the claimed direction can fail: the merged bounds may coincide
in a single version that satisfies both operands, as the counterexample
shows.) -/
theorem C1_satisfies_intersect :
    ∀ (v : IVersion) (c1 c2 i : IConstraint),
      wfC c1 = true → wfC c2 = true → wfV v = true →
      constraintIntersect c1 c2 = some i →
      (versionSatifiesConstraint v i = true ↔
        versionSatifiesConstraint v c1 = true ∧ versionSatifiesConstraint v c2 = true) :=
  fun _ _ _ _ h1 h2 hv hi => intersect_sat_iff h1 h2 hv hi

/-- Witness for `C1_satisfies_intersect` at a concrete input. -/
theorem C1_satisfies_intersect_witness :
    versionSatifiesConstraint ⟨1, 5, 0, "1.5.0"⟩
        ⟨⟨1, 2, 0, "1.2.0"⟩, ⟨2, 0, 0, "2.0.0"⟩, .le, .lt⟩ = true ↔
      versionSatifiesConstraint ⟨1, 5, 0, "1.5.0"⟩
          ⟨⟨1, 0, 0, "1.0.0"⟩, ⟨2, 0, 0, "2.0.0"⟩, .le, .lt⟩ = true ∧
        versionSatifiesConstraint ⟨1, 5, 0, "1.5.0"⟩
          ⟨⟨1, 2, 0, "1.2.0"⟩, ⟨3, 0, 0, "3.0.0"⟩, .le, .le⟩ = true :=
  C1_satisfies_intersect ⟨1, 5, 0, "1.5.0"⟩
    ⟨⟨1, 0, 0, "1.0.0"⟩, ⟨2, 0, 0, "2.0.0"⟩, .le, .lt⟩
    ⟨⟨1, 2, 0, "1.2.0"⟩, ⟨3, 0, 0, "3.0.0"⟩, .le, .le⟩
    ⟨⟨1, 2, 0, "1.2.0"⟩, ⟨2, 0, 0, "2.0.0"⟩, .le, .lt⟩
    (by decide) (by decide) (by decide) (by decide)

/-- Claim C4: on well-formed constraints, `constraintIntersect` computes
exactly the spec's intersection (lower = max of lowers, strict operator
wins on equal bounds; upper = min of uppers, strict wins on ties; absent
exactly when the merged lower compares `>=` the merged upper); and the
spec's concrete example `intersect(1.0.0 <= v < 2.0.0, 1.2.0 <= v <=
3.0.0) = 1.2.0 <= v < 2.0.0` evaluates as claimed. -/
theorem C4_constraintIntersect_spec :
    (∀ c1 c2 : IConstraint, wfC c1 = true → wfC c2 = true →
        constraintIntersect c1 c2 = specConstraintIntersect c1 c2) ∧
      constraintIntersect ⟨⟨1, 0, 0, "1.0.0"⟩, ⟨2, 0, 0, "2.0.0"⟩, .le, .lt⟩
          ⟨⟨1, 2, 0, "1.2.0"⟩, ⟨3, 0, 0, "3.0.0"⟩, .le, .le⟩ =
        some ⟨⟨1, 2, 0, "1.2.0"⟩, ⟨2, 0, 0, "2.0.0"⟩, .le, .lt⟩ :=
  ⟨fun _ _ h1 h2 => constraintIntersect_eq_spec h1 h2, by decide⟩

/-- Witness for `C4_constraintIntersect_spec` at a concrete input. -/
theorem C4_constraintIntersect_spec_witness :
    constraintIntersect ⟨⟨1, 0, 0, "1.0.0"⟩, ⟨2, 0, 0, "2.0.0"⟩, .le, .lt⟩
        ⟨⟨1, 2, 0, "1.2.0"⟩, ⟨3, 0, 0, "3.0.0"⟩, .le, .le⟩ =
      specConstraintIntersect ⟨⟨1, 0, 0, "1.0.0"⟩, ⟨2, 0, 0, "2.0.0"⟩, .le, .lt⟩
        ⟨⟨1, 2, 0, "1.2.0"⟩, ⟨3, 0, 0, "3.0.0"⟩, .le, .le⟩ :=
  C4_constraintIntersect_spec.1
    ⟨⟨1, 0, 0, "1.0.0"⟩, ⟨2, 0, 0, "2.0.0"⟩, .le, .lt⟩
    ⟨⟨1, 2, 0, "1.2.0"⟩, ⟨3, 0, 0, "3.0.0"⟩, .le, .le⟩ (by decide) (by decide)

/-- Claim C6: `versionCompare` always returns `-1`, `0` or `1`, and on
well-formed versions (string form consistent with the numeric triple, the
data-model invariant) it equals the lexicographic comparison of the
triples.  Note that the implementation reads only the string form, so the
triple-only reading requires the invariant. -/
theorem C6_versionCompare_lex :
    ∀ a b : IVersion,
      (versionCompare a b = -1 ∨ versionCompare a b = 0 ∨ versionCompare a b = 1) ∧
        (wfV a = true → wfV b = true → versionCompare a b = specVersionCompare a b) :=
  fun a b => ⟨versionCompare_mem a b, fun ha hb => versionCompare_eq_spec ha hb⟩

/-- Witness for `C6_versionCompare_lex` at a concrete input. -/
theorem C6_versionCompare_lex_witness :
    versionCompare ⟨1, 2, 3, "1.2.3"⟩ ⟨1, 10, 0, "1.10.0"⟩ =
      specVersionCompare ⟨1, 2, 3, "1.2.3"⟩ ⟨1, 10, 0, "1.10.0"⟩ :=
  (C6_versionCompare_lex ⟨1, 2, 3, "1.2.3"⟩ ⟨1, 10, 0, "1.10.0"⟩).2 (by decide) (by decide)

theorem mergeOp_comm (op1 op2 : ConstraintOp) : mergeOp op1 op2 = mergeOp op2 op1 := by
  cases op1 <;> cases op2 <;> rfl

theorem mergeOp_assoc (op1 op2 op3 : ConstraintOp) :
    mergeOp (mergeOp op1 op2) op3 = mergeOp op1 (mergeOp op2 op3) := by
  cases op1 <;> cases op2 <;> cases op3 <;> rfl

theorem specVersionCompare_antisymm (a b : IVersion) :
    specVersionCompare b a = -specVersionCompare a b := by
  unfold specVersionCompare
  split_ifs <;> omega

theorem specVersionCompare_refl (a : IVersion) : specVersionCompare a a = 0 := by
  unfold specVersionCompare
  split_ifs <;> omega

theorem specVersionCompare_trans_lt {a b c : IVersion}
    (h1 : specVersionCompare a b = -1) (h2 : specVersionCompare b c = -1) :
    specVersionCompare a c = -1 := by
  rw [specVersionCompare_eq_neg_one_iff] at h1 h2 ⊢
  simp only [lexLt] at h1 h2 ⊢
  omega

theorem specVersionCompare_trans_gt {a b c : IVersion}
    (h1 : specVersionCompare a b = 1) (h2 : specVersionCompare b c = 1) :
    specVersionCompare a c = 1 := by
  rw [specVersionCompare_eq_one_iff] at h1 h2 ⊢
  simp only [lexLt] at h1 h2 ⊢
  omega

/-- Canonical representation: well-formed and the string form is the
dotted decimal rendering of the triple, so versions that compare equal
are identical records. -/
def canonV (v : IVersion) : Prop :=
  wfV v = true ∧
    v.string = toString v.major ++ "." ++ toString v.minor ++ "." ++ toString v.patch

/-- A constraint with canonically represented bounds. -/
def canonC (c : IConstraint) : Prop := canonV c.lower ∧ canonV c.upper

instance (v : IVersion) : Decidable (canonV v) := by unfold canonV; infer_instance

instance (c : IConstraint) : Decidable (canonC c) := by unfold canonC; infer_instance

theorem wfC_of_canonC {c : IConstraint} (h : canonC c) : wfC c = true := by
  unfold wfC
  rw [Bool.and_eq_true_iff]
  exact ⟨h.1.1, h.2.1⟩

/-- Canonically represented versions that compare equal are equal
records. -/
theorem eq_of_specVersionCompare_zero {x y : IVersion} (hx : canonV x) (hy : canonV y)
    (h : specVersionCompare x y = 0) : x = y := by
  rw [specVersionCompare_eq_zero_iff] at h
  obtain ⟨h1, h2, h3⟩ := h
  obtain ⟨-, hx2⟩ := hx
  obtain ⟨-, hy2⟩ := hy
  cases x
  cases y
  simp_all

/-- The lower-bound half of the intersection as an operation on
`(bound, operator)` pairs. -/
def pairLow (x y : IVersion × ConstraintOp) : IVersion × ConstraintOp :=
  if specVersionCompare x.1 y.1 = -1 then y
  else if specVersionCompare x.1 y.1 = 0 then (x.1, mergeOp x.2 y.2)
  else x

/-- The upper-bound half of the intersection as an operation on
`(bound, operator)` pairs. -/
def pairUp (x y : IVersion × ConstraintOp) : IVersion × ConstraintOp :=
  if specVersionCompare x.1 y.1 = 1 then y
  else if specVersionCompare x.1 y.1 = 0 then (x.1, mergeOp x.2 y.2)
  else x

theorem specNewLower_pair (a b : IConstraint) :
    (specNewLower a b, specNewLowerOp a b) =
      pairLow (a.lower, a.lowerOperator) (b.lower, b.lowerOperator) := by
  unfold specNewLower specNewLowerOp pairLow
  split_ifs <;> rfl

theorem specNewUpper_pair (a b : IConstraint) :
    (specNewUpper a b, specNewUpperOp a b) =
      pairUp (a.upper, a.upperOperator) (b.upper, b.upperOperator) := by
  unfold specNewUpper specNewUpperOp pairUp
  rcases specVersionCompare_mem a.upper b.upper with h | h | h <;>
    simp only [h] <;> norm_num

theorem pairLow_eval_lt {x y : IVersion × ConstraintOp}
    (h : specVersionCompare x.1 y.1 = -1) : pairLow x y = y := by
  unfold pairLow
  rw [if_pos h]

theorem pairLow_eval_eq {x y : IVersion × ConstraintOp}
    (h : specVersionCompare x.1 y.1 = 0) : pairLow x y = (x.1, mergeOp x.2 y.2) := by
  unfold pairLow
  rw [if_neg (by omega), if_pos h]

theorem pairLow_eval_gt {x y : IVersion × ConstraintOp}
    (h : specVersionCompare x.1 y.1 = 1) : pairLow x y = x := by
  unfold pairLow
  rw [if_neg (by omega), if_neg (by omega)]

theorem pairUp_eval_gt {x y : IVersion × ConstraintOp}
    (h : specVersionCompare x.1 y.1 = 1) : pairUp x y = y := by
  unfold pairUp
  rw [if_pos h]

theorem pairUp_eval_eq {x y : IVersion × ConstraintOp}
    (h : specVersionCompare x.1 y.1 = 0) : pairUp x y = (x.1, mergeOp x.2 y.2) := by
  unfold pairUp
  rw [if_neg (by omega), if_pos h]

theorem pairUp_eval_lt {x y : IVersion × ConstraintOp}
    (h : specVersionCompare x.1 y.1 = -1) : pairUp x y = x := by
  unfold pairUp
  rw [if_neg (by omega), if_neg (by omega)]

theorem pairLow_comm {x y : IVersion × ConstraintOp}
    (hx : canonV x.1) (hy : canonV y.1) : pairLow x y = pairLow y x := by
  rcases specVersionCompare_mem x.1 y.1 with h | h | h
  · rw [pairLow_eval_lt h, pairLow_eval_gt (by rw [specVersionCompare_antisymm]; omega)]
  · have hr := eq_of_specVersionCompare_zero hx hy h
    rw [pairLow_eval_eq h, pairLow_eval_eq (by rw [specVersionCompare_antisymm]; omega),
      hr, mergeOp_comm]
  · rw [pairLow_eval_gt h, pairLow_eval_lt (by rw [specVersionCompare_antisymm]; omega)]

theorem pairUp_comm {x y : IVersion × ConstraintOp}
    (hx : canonV x.1) (hy : canonV y.1) : pairUp x y = pairUp y x := by
  rcases specVersionCompare_mem x.1 y.1 with h | h | h
  · rw [pairUp_eval_lt h, pairUp_eval_gt (by rw [specVersionCompare_antisymm]; omega)]
  · have hr := eq_of_specVersionCompare_zero hx hy h
    rw [pairUp_eval_eq h, pairUp_eval_eq (by rw [specVersionCompare_antisymm]; omega),
      hr, mergeOp_comm]
  · rw [pairUp_eval_gt h, pairUp_eval_lt (by rw [specVersionCompare_antisymm]; omega)]

theorem pairLow_fst_mem (x y : IVersion × ConstraintOp) :
    (pairLow x y).1 = x.1 ∨ (pairLow x y).1 = y.1 := by
  unfold pairLow
  split_ifs <;> simp

theorem pairUp_fst_mem (x y : IVersion × ConstraintOp) :
    (pairUp x y).1 = x.1 ∨ (pairUp x y).1 = y.1 := by
  unfold pairUp
  split_ifs <;> simp

theorem pairLow_assoc {x y z : IVersion × ConstraintOp}
    (hx : canonV x.1) (hy : canonV y.1) (hz : canonV z.1) :
    pairLow (pairLow x y) z = pairLow x (pairLow y z) := by
  rcases specVersionCompare_mem x.1 y.1 with hxy | hxy | hxy <;>
    rcases specVersionCompare_mem y.1 z.1 with hyz | hyz | hyz
  · rw [pairLow_eval_lt hxy, pairLow_eval_lt hyz,
      pairLow_eval_lt (specVersionCompare_trans_lt hxy hyz)]
  · have hr := eq_of_specVersionCompare_zero hy hz hyz
    rw [pairLow_eval_lt hxy, pairLow_eval_eq hyz,
      pairLow_eval_lt (show specVersionCompare x.1 (y.1, mergeOp y.2 z.2).1 = -1 from hxy)]
  · rw [pairLow_eval_lt hxy, pairLow_eval_gt hyz, pairLow_eval_lt hxy]
  · have hr := eq_of_specVersionCompare_zero hx hy hxy
    have hxz : specVersionCompare x.1 z.1 = -1 := by rw [hr]; exact hyz
    rw [pairLow_eval_eq hxy, pairLow_eval_lt hyz,
      pairLow_eval_lt (show specVersionCompare (x.1, mergeOp x.2 y.2).1 z.1 = -1 from hxz),
      pairLow_eval_lt hxz]
  · have hrxy := eq_of_specVersionCompare_zero hx hy hxy
    have hryz := eq_of_specVersionCompare_zero hy hz hyz
    have hxz : specVersionCompare x.1 z.1 = 0 := by
      rw [hrxy, hryz]; exact specVersionCompare_refl z.1
    rw [pairLow_eval_eq hxy, pairLow_eval_eq hyz,
      pairLow_eval_eq (show specVersionCompare (x.1, mergeOp x.2 y.2).1 z.1 = 0 from hxz),
      pairLow_eval_eq (show specVersionCompare x.1 (y.1, mergeOp y.2 z.2).1 = 0 from hxy),
      mergeOp_assoc]
  · have hrxy := eq_of_specVersionCompare_zero hx hy hxy
    have hxz : specVersionCompare x.1 z.1 = 1 := by rw [hrxy]; exact hyz
    rw [pairLow_eval_eq hxy, pairLow_eval_gt hyz,
      pairLow_eval_gt (show specVersionCompare (x.1, mergeOp x.2 y.2).1 z.1 = 1 from hxz),
      pairLow_eval_eq hxy]
  · rw [pairLow_eval_gt hxy, pairLow_eval_lt hyz]
  · have hryz := eq_of_specVersionCompare_zero hy hz hyz
    have hxz : specVersionCompare x.1 z.1 = 1 := by rw [← hryz]; exact hxy
    rw [pairLow_eval_gt hxy, pairLow_eval_eq hyz, pairLow_eval_gt hxz,
      pairLow_eval_gt (show specVersionCompare x.1 (y.1, mergeOp y.2 z.2).1 = 1 from hxy)]
  · rw [pairLow_eval_gt hxy, pairLow_eval_gt hyz, pairLow_eval_gt hxy,
      pairLow_eval_gt (specVersionCompare_trans_gt hxy hyz)]

theorem pairUp_assoc {x y z : IVersion × ConstraintOp}
    (hx : canonV x.1) (hy : canonV y.1) (hz : canonV z.1) :
    pairUp (pairUp x y) z = pairUp x (pairUp y z) := by
  rcases specVersionCompare_mem x.1 y.1 with hxy | hxy | hxy <;>
    rcases specVersionCompare_mem y.1 z.1 with hyz | hyz | hyz
  · rw [pairUp_eval_lt hxy, pairUp_eval_lt hyz, pairUp_eval_lt hxy,
      pairUp_eval_lt (specVersionCompare_trans_lt hxy hyz)]
  · have hryz := eq_of_specVersionCompare_zero hy hz hyz
    have hxz : specVersionCompare x.1 z.1 = -1 := by rw [← hryz]; exact hxy
    rw [pairUp_eval_lt hxy, pairUp_eval_eq hyz, pairUp_eval_lt hxz,
      pairUp_eval_lt (show specVersionCompare x.1 (y.1, mergeOp y.2 z.2).1 = -1 from hxy)]
  · rw [pairUp_eval_lt hxy, pairUp_eval_gt hyz]
  · have hrxy := eq_of_specVersionCompare_zero hx hy hxy
    have hxz : specVersionCompare x.1 z.1 = -1 := by rw [hrxy]; exact hyz
    rw [pairUp_eval_eq hxy, pairUp_eval_lt hyz,
      pairUp_eval_lt (show specVersionCompare (x.1, mergeOp x.2 y.2).1 z.1 = -1 from hxz),
      pairUp_eval_eq hxy]
  · have hrxy := eq_of_specVersionCompare_zero hx hy hxy
    have hryz := eq_of_specVersionCompare_zero hy hz hyz
    have hxz : specVersionCompare x.1 z.1 = 0 := by
      rw [hrxy, hryz]; exact specVersionCompare_refl z.1
    rw [pairUp_eval_eq hxy, pairUp_eval_eq hyz,
      pairUp_eval_eq (show specVersionCompare (x.1, mergeOp x.2 y.2).1 z.1 = 0 from hxz),
      pairUp_eval_eq (show specVersionCompare x.1 (y.1, mergeOp y.2 z.2).1 = 0 from hxy),
      mergeOp_assoc]
  · have hrxy := eq_of_specVersionCompare_zero hx hy hxy
    have hxz : specVersionCompare x.1 z.1 = 1 := by rw [hrxy]; exact hyz
    rw [pairUp_eval_eq hxy, pairUp_eval_gt hyz,
      pairUp_eval_gt (show specVersionCompare (x.1, mergeOp x.2 y.2).1 z.1 = 1 from hxz),
      pairUp_eval_gt hxz]
  · rw [pairUp_eval_gt hxy, pairUp_eval_lt hyz, pairUp_eval_gt hxy]
  · have hryz := eq_of_specVersionCompare_zero hy hz hyz
    rw [pairUp_eval_gt hxy, pairUp_eval_eq hyz,
      pairUp_eval_gt (show specVersionCompare x.1 (y.1, mergeOp y.2 z.2).1 = 1 from hxy)]
  · rw [pairUp_eval_gt hxy, pairUp_eval_gt hyz,
      pairUp_eval_gt (specVersionCompare_trans_gt hxy hyz)]

theorem pairLow_not_lt_left (x y : IVersion × ConstraintOp) :
    ¬ lexLt (pairLow x y).1 x.1 := by
  rcases specVersionCompare_mem x.1 y.1 with h | h | h
  · rw [pairLow_eval_lt h]
    rw [specVersionCompare_eq_neg_one_iff] at h
    simp only [lexLt] at h ⊢
    omega
  · rw [pairLow_eval_eq h]
    simp only [lexLt]
    omega
  · rw [pairLow_eval_gt h]
    simp only [lexLt]
    omega

theorem pairLow_not_lt_right (x y : IVersion × ConstraintOp) :
    ¬ lexLt (pairLow x y).1 y.1 := by
  rcases specVersionCompare_mem x.1 y.1 with h | h | h
  · rw [pairLow_eval_lt h]
    simp only [lexLt]
    omega
  · rw [pairLow_eval_eq h]
    rw [specVersionCompare_eq_zero_iff] at h
    simp only [lexEq] at h
    simp only [lexLt]
    omega
  · rw [pairLow_eval_gt h]
    rw [specVersionCompare_eq_one_iff] at h
    simp only [lexLt] at h ⊢
    omega

theorem pairUp_not_gt_left (x y : IVersion × ConstraintOp) :
    ¬ lexLt x.1 (pairUp x y).1 := by
  rcases specVersionCompare_mem x.1 y.1 with h | h | h
  · rw [pairUp_eval_lt h]
    simp only [lexLt]
    omega
  · rw [pairUp_eval_eq h]
    simp only [lexLt]
    omega
  · rw [pairUp_eval_gt h]
    rw [specVersionCompare_eq_one_iff] at h
    simp only [lexLt] at h ⊢
    omega

theorem pairUp_not_gt_right (x y : IVersion × ConstraintOp) :
    ¬ lexLt y.1 (pairUp x y).1 := by
  rcases specVersionCompare_mem x.1 y.1 with h | h | h
  · rw [pairUp_eval_lt h]
    rw [specVersionCompare_eq_neg_one_iff] at h
    simp only [lexLt] at h ⊢
    omega
  · rw [pairUp_eval_eq h]
    rw [specVersionCompare_eq_zero_iff] at h
    simp only [lexEq] at h
    simp only [lexLt]
    omega
  · rw [pairUp_eval_gt h]
    simp only [lexLt]
    omega

/-- If a sub-intersection already has `lower >= upper`, so does any
further-restricted intersection. -/
theorem guard_mono {lo up lo' up' : IVersion}
    (hlo : ¬ lexLt lo' lo) (hup : ¬ lexLt up up') (hg : ¬ lexLt lo up) :
    ¬ lexLt lo' up' := by
  simp only [lexLt] at hlo hup hg ⊢
  omega

theorem specConstraintIntersect_comm {c1 c2 : IConstraint}
    (h1 : canonC c1) (h2 : canonC c2) :
    specConstraintIntersect c1 c2 = specConstraintIntersect c2 c1 := by
  have hl : (specNewLower c1 c2, specNewLowerOp c1 c2) =
      (specNewLower c2 c1, specNewLowerOp c2 c1) := by
    rw [specNewLower_pair, specNewLower_pair]
    exact pairLow_comm h1.1 h2.1
  have hu : (specNewUpper c1 c2, specNewUpperOp c1 c2) =
      (specNewUpper c2 c1, specNewUpperOp c2 c1) := by
    rw [specNewUpper_pair, specNewUpper_pair]
    exact pairUp_comm h1.2 h2.2
  rw [Prod.mk.injEq] at hl hu
  unfold specConstraintIntersect
  rw [hl.1, hl.2, hu.1, hu.2]

/-- A defined spec intersection of canonical constraints is canonical:
its bounds come from the operands. -/
theorem specConstraintIntersect_canon {c1 c2 i : IConstraint}
    (h1 : canonC c1) (h2 : canonC c2)
    (hi : specConstraintIntersect c1 c2 = some i) : canonC i := by
  unfold specConstraintIntersect at hi
  split at hi
  · cases hi
  · injection hi with hi
    subst hi
    constructor
    · show canonV (specNewLower c1 c2)
      unfold specNewLower
      split
      · exact h2.1
      · exact h1.1
    · show canonV (specNewUpper c1 c2)
      unfold specNewUpper
      split
      · exact h2.2
      · exact h1.2

/-- Lifting of `specConstraintIntersect` to possibly-absent arguments. -/
def specConstraintIntersectOpt : Option IConstraint → Option IConstraint → Option IConstraint
  | some a, some b => specConstraintIntersect a b
  | _, _ => none

theorem specConstraintIntersect_assoc {c1 c2 c3 : IConstraint}
    (h1 : canonC c1) (h2 : canonC c2) (h3 : canonC c3) :
    specConstraintIntersectOpt (specConstraintIntersect c1 c2) (some c3) =
      specConstraintIntersectOpt (some c1) (specConstraintIntersect c2 c3) := by
  have b12l : (specNewLower c1 c2, specNewLowerOp c1 c2) =
      pairLow (c1.lower, c1.lowerOperator) (c2.lower, c2.lowerOperator) :=
    specNewLower_pair c1 c2
  have b12u : (specNewUpper c1 c2, specNewUpperOp c1 c2) =
      pairUp (c1.upper, c1.upperOperator) (c2.upper, c2.upperOperator) :=
    specNewUpper_pair c1 c2
  have b23l : (specNewLower c2 c3, specNewLowerOp c2 c3) =
      pairLow (c2.lower, c2.lowerOperator) (c3.lower, c3.lowerOperator) :=
    specNewLower_pair c2 c3
  have b23u : (specNewUpper c2 c3, specNewUpperOp c2 c3) =
      pairUp (c2.upper, c2.upperOperator) (c3.upper, c3.upperOperator) :=
    specNewUpper_pair c2 c3
  by_cases g12 : specVersionCompare (specNewLower c1 c2) (specNewUpper c1 c2) ≠ -1
  · have h12 : specConstraintIntersect c1 c2 = none := by
      unfold specConstraintIntersect
      rw [if_pos g12]
    rw [h12]
    by_cases g23 : specVersionCompare (specNewLower c2 c3) (specNewUpper c2 c3) ≠ -1
    · have h23 : specConstraintIntersect c2 c3 = none := by
        unfold specConstraintIntersect
        rw [if_pos g23]
      rw [h23]
      rfl
    · push_neg at g23
      have h23 : specConstraintIntersect c2 c3 =
          some ⟨specNewLower c2 c3, specNewUpper c2 c3,
            specNewLowerOp c2 c3, specNewUpperOp c2 c3⟩ := by
        unfold specConstraintIntersect
        rw [if_neg (not_not_intro g23)]
      rw [h23]
      show (none : Option IConstraint) = specConstraintIntersect c1 _
      have bl : (specNewLower c1 ⟨specNewLower c2 c3, specNewUpper c2 c3,
            specNewLowerOp c2 c3, specNewUpperOp c2 c3⟩,
          specNewLowerOp c1 ⟨specNewLower c2 c3, specNewUpper c2 c3,
            specNewLowerOp c2 c3, specNewUpperOp c2 c3⟩) =
          pairLow (c1.lower, c1.lowerOperator) (specNewLower c2 c3, specNewLowerOp c2 c3) :=
        specNewLower_pair c1 _
      rw [b23l, ← pairLow_assoc h1.1 h2.1 h3.1] at bl
      have bu : (specNewUpper c1 ⟨specNewLower c2 c3, specNewUpper c2 c3,
            specNewLowerOp c2 c3, specNewUpperOp c2 c3⟩,
          specNewUpperOp c1 ⟨specNewLower c2 c3, specNewUpper c2 c3,
            specNewLowerOp c2 c3, specNewUpperOp c2 c3⟩) =
          pairUp (c1.upper, c1.upperOperator) (specNewUpper c2 c3, specNewUpperOp c2 c3) :=
        specNewUpper_pair c1 _
      rw [b23u, ← pairUp_assoc h1.2 h2.2 h3.2] at bu
      rw [Prod.mk.injEq] at bl bu b12l b12u
      unfold specConstraintIntersect
      rw [if_pos ?_]
      rw [bl.1, bu.1, Ne, specVersionCompare_eq_neg_one_iff]
      refine guard_mono (pairLow_not_lt_left _ _) (pairUp_not_gt_left _ _) ?_
      rw [← b12l.1, ← b12u.1, ← specVersionCompare_eq_neg_one_iff]
      exact g12
  · push_neg at g12
    have h12 : specConstraintIntersect c1 c2 =
        some ⟨specNewLower c1 c2, specNewUpper c1 c2,
          specNewLowerOp c1 c2, specNewUpperOp c1 c2⟩ := by
      unfold specConstraintIntersect
      rw [if_neg (not_not_intro g12)]
    rw [h12]
    have bl : (specNewLower ⟨specNewLower c1 c2, specNewUpper c1 c2,
          specNewLowerOp c1 c2, specNewUpperOp c1 c2⟩ c3,
        specNewLowerOp ⟨specNewLower c1 c2, specNewUpper c1 c2,
          specNewLowerOp c1 c2, specNewUpperOp c1 c2⟩ c3) =
        pairLow (specNewLower c1 c2, specNewLowerOp c1 c2) (c3.lower, c3.lowerOperator) :=
      specNewLower_pair _ c3
    rw [b12l] at bl
    have bu : (specNewUpper ⟨specNewLower c1 c2, specNewUpper c1 c2,
          specNewLowerOp c1 c2, specNewUpperOp c1 c2⟩ c3,
        specNewUpperOp ⟨specNewLower c1 c2, specNewUpper c1 c2,
          specNewLowerOp c1 c2, specNewUpperOp c1 c2⟩ c3) =
        pairUp (specNewUpper c1 c2, specNewUpperOp c1 c2) (c3.upper, c3.upperOperator) :=
      specNewUpper_pair _ c3
    rw [b12u] at bu
    by_cases g23 : specVersionCompare (specNewLower c2 c3) (specNewUpper c2 c3) ≠ -1
    · have h23 : specConstraintIntersect c2 c3 = none := by
        unfold specConstraintIntersect
        rw [if_pos g23]
      rw [h23]
      show specConstraintIntersect _ c3 = none
      rw [Prod.mk.injEq] at bl bu b23l b23u
      unfold specConstraintIntersect
      rw [if_pos ?_]
      rw [bl.1, bu.1, pairLow_assoc h1.1 h2.1 h3.1, pairUp_assoc h1.2 h2.2 h3.2,
        Ne, specVersionCompare_eq_neg_one_iff]
      refine guard_mono (pairLow_not_lt_right _ _) (pairUp_not_gt_right _ _) ?_
      rw [← b23l.1, ← b23u.1, ← specVersionCompare_eq_neg_one_iff]
      exact g23
    · push_neg at g23
      have h23 : specConstraintIntersect c2 c3 =
          some ⟨specNewLower c2 c3, specNewUpper c2 c3,
            specNewLowerOp c2 c3, specNewUpperOp c2 c3⟩ := by
        unfold specConstraintIntersect
        rw [if_neg (not_not_intro g23)]
      rw [h23]
      show specConstraintIntersect _ c3 = specConstraintIntersect c1 _
      have bl' : (specNewLower c1 ⟨specNewLower c2 c3, specNewUpper c2 c3,
            specNewLowerOp c2 c3, specNewUpperOp c2 c3⟩,
          specNewLowerOp c1 ⟨specNewLower c2 c3, specNewUpper c2 c3,
            specNewLowerOp c2 c3, specNewUpperOp c2 c3⟩) =
          pairLow (c1.lower, c1.lowerOperator) (specNewLower c2 c3, specNewLowerOp c2 c3) :=
        specNewLower_pair c1 _
      rw [b23l, ← pairLow_assoc h1.1 h2.1 h3.1] at bl'
      have bu' : (specNewUpper c1 ⟨specNewLower c2 c3, specNewUpper c2 c3,
            specNewLowerOp c2 c3, specNewUpperOp c2 c3⟩,
          specNewUpperOp c1 ⟨specNewLower c2 c3, specNewUpper c2 c3,
            specNewLowerOp c2 c3, specNewUpperOp c2 c3⟩) =
          pairUp (c1.upper, c1.upperOperator) (specNewUpper c2 c3, specNewUpperOp c2 c3) :=
        specNewUpper_pair c1 _
      rw [b23u, ← pairUp_assoc h1.2 h2.2 h3.2] at bu'
      have el := bl.trans bl'.symm
      have eu := bu.trans bu'.symm
      rw [Prod.mk.injEq] at el eu
      unfold specConstraintIntersect
      rw [el.1, el.2, eu.1, eu.2]

/-- Claim C7, counterexample: two constraints whose lower bounds are
value-equal but differently rendered (`"1.0.0"` vs `"01.0.0"`).  On the
tie the source keeps the left-hand record, so the two intersection orders
return constraints whose lower-bound string forms differ, falsifying
commutativity with field-level equality. -/
theorem C7_counterexample :
    constraintIntersect ⟨⟨1, 0, 0, "1.0.0"⟩, ⟨3, 0, 0, "3.0.0"⟩, .le, .le⟩
        ⟨⟨1, 0, 0, "01.0.0"⟩, ⟨4, 0, 0, "4.0.0"⟩, .le, .le⟩ ≠
      constraintIntersect ⟨⟨1, 0, 0, "01.0.0"⟩, ⟨4, 0, 0, "4.0.0"⟩, .le, .le⟩
        ⟨⟨1, 0, 0, "1.0.0"⟩, ⟨3, 0, 0, "3.0.0"⟩, .le, .le⟩ := by
  decide

/-- Claim C7, amended: `constraintIntersect` is commutative and
associative — with field-level equality of the results, absent results
equal — for constraints whose bound versions are canonically represented
(the string form is the dotted decimal rendering of the triple, so bounds
that compare equal are identical records). -/
theorem C7_intersect_comm_assoc :
    ∀ c1 c2 c3 : IConstraint, canonC c1 → canonC c2 → canonC c3 →
      constraintIntersect c1 c2 = constraintIntersect c2 c1 ∧
        constraintIntersectOpt (constraintIntersect c1 c2) (some c3) =
          constraintIntersectOpt (some c1) (constraintIntersect c2 c3) := by
  intro c1 c2 c3 h1 h2 h3
  have w1 := wfC_of_canonC h1
  have w2 := wfC_of_canonC h2
  have w3 := wfC_of_canonC h3
  refine ⟨?_, ?_⟩
  · rw [constraintIntersect_eq_spec w1 w2, constraintIntersect_eq_spec w2 w1]
    exact specConstraintIntersect_comm h1 h2
  · have key := specConstraintIntersect_assoc h1 h2 h3
    rw [constraintIntersect_eq_spec w1 w2, constraintIntersect_eq_spec w2 w3]
    cases h12 : specConstraintIntersect c1 c2 with
    | none =>
      cases h23 : specConstraintIntersect c2 c3 with
      | none => rfl
      | some c23 =>
        rw [h12, h23] at key
        show (none : Option IConstraint) = constraintIntersect c1 c23
        rw [constraintIntersect_eq_spec w1
          (wfC_of_canonC (specConstraintIntersect_canon h2 h3 h23))]
        exact key
    | some c12 =>
      cases h23 : specConstraintIntersect c2 c3 with
      | none =>
        rw [h12, h23] at key
        show constraintIntersect c12 c3 = none
        rw [constraintIntersect_eq_spec
          (wfC_of_canonC (specConstraintIntersect_canon h1 h2 h12)) w3]
        exact key
      | some c23 =>
        rw [h12, h23] at key
        show constraintIntersect c12 c3 = constraintIntersect c1 c23
        rw [constraintIntersect_eq_spec
            (wfC_of_canonC (specConstraintIntersect_canon h1 h2 h12)) w3,
          constraintIntersect_eq_spec w1
            (wfC_of_canonC (specConstraintIntersect_canon h2 h3 h23))]
        exact key

/-- Witness for `C7_intersect_comm_assoc` at a concrete input. -/
theorem C7_intersect_comm_assoc_witness :
    constraintIntersect ⟨⟨1, 0, 0, "1.0.0"⟩, ⟨3, 0, 0, "3.0.0"⟩, .le, .lt⟩
          ⟨⟨1, 2, 0, "1.2.0"⟩, ⟨4, 0, 0, "4.0.0"⟩, .le, .le⟩ =
        constraintIntersect ⟨⟨1, 2, 0, "1.2.0"⟩, ⟨4, 0, 0, "4.0.0"⟩, .le, .le⟩
          ⟨⟨1, 0, 0, "1.0.0"⟩, ⟨3, 0, 0, "3.0.0"⟩, .le, .lt⟩ ∧
      constraintIntersectOpt
          (constraintIntersect ⟨⟨1, 0, 0, "1.0.0"⟩, ⟨3, 0, 0, "3.0.0"⟩, .le, .lt⟩
            ⟨⟨1, 2, 0, "1.2.0"⟩, ⟨4, 0, 0, "4.0.0"⟩, .le, .le⟩)
          (some ⟨⟨1, 1, 0, "1.1.0"⟩, ⟨2, 5, 0, "2.5.0"⟩, .le, .le⟩) =
        constraintIntersectOpt (some ⟨⟨1, 0, 0, "1.0.0"⟩, ⟨3, 0, 0, "3.0.0"⟩, .le, .lt⟩)
          (constraintIntersect ⟨⟨1, 2, 0, "1.2.0"⟩, ⟨4, 0, 0, "4.0.0"⟩, .le, .le⟩
            ⟨⟨1, 1, 0, "1.1.0"⟩, ⟨2, 5, 0, "2.5.0"⟩, .le, .le⟩) :=
  C7_intersect_comm_assoc
    ⟨⟨1, 0, 0, "1.0.0"⟩, ⟨3, 0, 0, "3.0.0"⟩, .le, .lt⟩
    ⟨⟨1, 2, 0, "1.2.0"⟩, ⟨4, 0, 0, "4.0.0"⟩, .le, .le⟩
    ⟨⟨1, 1, 0, "1.1.0"⟩, ⟨2, 5, 0, "2.5.0"⟩, .le, .le⟩
    (by decide) (by decide) (by decide)

/-! ## The dependency solver (`elmUtils.ts:113-233`)

JavaScript `Map`s are modelled as insertion-ordered association lists
with unique keys; `get`, `set`, `delete` and `keys` below follow the
`Map` semantics used by the solver. -/

/-- A pending-constraint map (`ReadonlyMap<string, IConstraint>`). -/
abbrev DepMap := List (String × IConstraint)

/-- A solution map (`ReadonlyMap<string, IVersion>`). -/
abbrev SolMap := List (String × IVersion)

/-- `Map.get`. -/
def mapGet {α : Type} : List (String × α) → String → Option α
  | [], _ => none
  | (k', v) :: rest, k => if k' = k then some v else mapGet rest k

/-- `Map.set`: replace in place if the key exists, else append. -/
def mapSet {α : Type} : List (String × α) → String → α → List (String × α)
  | [], k, v => [(k, v)]
  | (k', v') :: rest, k, v =>
    if k' = k then (k, v) :: rest else (k', v') :: mapSet rest k v

/-- `Map.delete`: remove every entry with the key (the solver's maps
have unique keys, so at most one is removed). -/
def mapDelete {α : Type} : List (String × α) → String → List (String × α)
  | [], _ => []
  | (k', v') :: rest, k =>
    if k' = k then mapDelete rest k else (k', v') :: mapDelete rest k

/-- `Map.keys` in insertion order. -/
def mapKeys {α : Type} (m : List (String × α)) : List String := m.map (·.1)

/-- `Array.from(keys).sort()[0]` (`elmUtils.ts:145`): the least key under
the string order (JS compares UTF-16 code units; package names are ASCII,
where Lean's `String` order agrees). -/
def minKey? : List String → Option String
  | [] => none
  | k :: ks => some (ks.foldl (fun a b => if b < a then b else a) k)

/-- The `pickDep` helper (`elmUtils.ts:140-155`): the lexicographically
least pending name with its constraint (`deps.get(firstDep)!`), or `none`
when the map is empty. -/
def pickDep (deps : DepMap) : Option (String × IConstraint) :=
  (minKey? (mapKeys deps)).bind (fun k => (mapGet deps k).map (fun c => (k, c)))

/-- Insertion-order deduplication, as `new Set([...a.keys(), ...b.keys()])`
iterates each key at its first occurrence. -/
def dedupKeysAux (seen : List String) : List String → List String
  | [] => []
  | k :: ks =>
    if k ∈ seen then dedupKeysAux seen ks else k :: dedupKeysAux (k :: seen) ks

/-- First-occurrence deduplication of a key list. -/
def dedupKeys (l : List String) : List String := dedupKeysAux [] l

/-- The per-key body of the `combineDeps` loop (`elmUtils.ts:162-181`):
intersect where both maps have the key (`none` when the intersection is
empty, the source's early `return`), otherwise whichever side has it;
`none` on `(none, none)` models the source's unreachable
`throw new Error("impossible")` (every key comes from one of the two
maps). -/
def combinedGet (a b : DepMap) (q : String) : Option IConstraint :=
  match mapGet a q, mapGet b q with
  | some v1, some v2 => constraintIntersect v1 v2
  | some v1, none => some v1
  | none, some v2 => some v2
  | none, none => none

/-- The loop of `combineDeps` (`elmUtils.ts:157-184`) over the
deduplicated key union, building the result map in iteration order. -/
def combineDepsAux (a b : DepMap) : List String → Option DepMap
  | [] => some []
  | k :: ks =>
    match combinedGet a b k with
    | none => none
    | some i => (combineDepsAux a b ks).map (fun rest => (k, i) :: rest)

/-- `combineDeps` (`elmUtils.ts:157-184`): union of the two constraint
maps, intersecting where keys overlap; `none` if some intersection is
empty. -/
def combineDeps (a b : DepMap) : Option DepMap :=
  combineDepsAux a b (dedupKeys (mapKeys a ++ mapKeys b))

/-- Modelled from the spec (§4.2, data model **Package**; the
`IElmPackage` interface lives in `elmWorkspace.ts`, which is not under
`src/`): one published release, its version and declared dependency
constraints. -/
structure IElmPackage where
  version : IVersion
  dependencies : DepMap
deriving DecidableEq, Repr

/-- Modelled from the spec (§4.2: the package cache maps each name to its
list of published `{version, dependencies}` entries). -/
abbrev PackageCache := List (String × List IElmPackage)

/-- Modelled from the spec: `IElmPackageCache.get(name)` (§4.2,
`elmWorkspace.ts` is not under `src/`) — the published entries of a
package; a name absent from the cache yields no candidates. -/
def cacheGet (cache : PackageCache) (name : String) : List IElmPackage :=
  (mapGet cache name).getD []

/-- The record half of `SolverResult` (`elmUtils.ts:113-118`); the
`undefined` alternative is `Option` below. -/
structure SolverState where
  pending : DepMap
  solutions : SolMap
deriving DecidableEq, Repr

/-- The candidate list of `solveDependenciesWorker` (`elmUtils.ts:193-207`).
The source sorts with the comparator
`a.version < b.version ? -1 : a.version > b.version ? 1 : 0`; both
operands are `IVersion` **objects**, which JavaScript's relational
operators coerce to the string `"[object Object]"`, so the comparator
always returns `0` and the (stable) sort is the identity — only the
`.reverse()` has any effect.  The filter against an already-solved
version uses `===` on the version strings. -/
def candidates (cache : PackageCache) (sols : SolMap) (name : String)
    (constraint : IConstraint) : List IElmPackage :=
  let filtered :=
    (((cacheGet cache name).filter
      (fun e => versionSatifiesConstraint e.version constraint))).reverse
  match mapGet sols name with
  | some solvedVersion => filtered.filter (fun e => e.version.string = solvedVersion.string)
  | none => filtered

/-- The `for (const candidate of candidates)` loop of
`solveDependenciesWorker` (`elmUtils.ts:209-232`), parameterized by the
recursive call `recur` (the worker at the remaining fuel).  `none` is
fuel exhaustion (the TS call would still be running), `some none` is the
source's `undefined` (dead end), `some (some r)` a result. -/
def tryCandidates (recur : DepMap → SolMap → Option (Option SolverState))
    (restDeps : DepMap) (name : String) (sols : SolMap) :
    List IElmPackage → Option (Option SolverState)
  | [] => some none
  | e :: rest =>
    match combineDeps restDeps e.dependencies with
    | none => tryCandidates recur restDeps name sols rest
    | some tentativeDeps =>
      match recur tentativeDeps (mapSet sols name e.version) with
      | none => none
      | some none => tryCandidates recur restDeps name sols rest
      | some (some r) => recur r.pending r.solutions

/-- `solveDependenciesWorker` (`elmUtils.ts:135-233`), with an explicit
fuel parameter bounding the recursion depth: the TS function recurses
without any such bound, so `none` (fuel exhausted at every depth) models
divergence, `some none` models the source's `undefined` and
`some (some r)` a returned result. -/
def solveDependenciesWorker (cache : PackageCache) :
    Nat → DepMap → SolMap → Option (Option SolverState)
  | 0, _, _ => none
  | fuel + 1, deps, sols =>
    match pickDep deps with
    | none => some (some ⟨deps, sols⟩)
    | some (name, constraint) =>
      tryCandidates (solveDependenciesWorker cache fuel) (mapDelete deps name) name sols
        (candidates cache sols name constraint)

/-- `solveDependencies` (`elmUtils.ts:120-133`): run the worker on the
root constraints with an empty solution and project out `solutions`. -/
def solveDependencies (fuel : Nat) (cache : PackageCache) (deps : DepMap) :
    Option (Option SolMap) :=
  match solveDependenciesWorker cache fuel deps [] with
  | none => none
  | some none => some none
  | some (some r) => some (some r.solutions)

/-- Claim C3 (code bug): with the package cache listing versions
newest-first — `2.0.0` then `1.0.0`, both satisfying the root constraint
`1.0.0 <= v < 3.0.0` — the solver returns `1.0.0`.  The sort comparator
`a.version < b.version ? -1 : a.version > b.version ? 1 : 0`
(`elmUtils.ts:196-198`) compares `IVersion` objects, which JavaScript
coerces to `"[object Object]"`, so it always returns `0`; only the
`.reverse()` acts, and candidates are tried in reverse cache order, not
in descending version order.  The second conjunct records that the newer
`2.0.0` was an admissible candidate. -/
theorem C3_newest_wins_violated :
    solveDependencies 4
        [("a", [⟨⟨2, 0, 0, "2.0.0"⟩, []⟩, ⟨⟨1, 0, 0, "1.0.0"⟩, []⟩])]
        [("a", ⟨⟨1, 0, 0, "1.0.0"⟩, ⟨3, 0, 0, "3.0.0"⟩, .le, .lt⟩)] =
      some (some [("a", ⟨1, 0, 0, "1.0.0"⟩)]) ∧
    versionSatifiesConstraint ⟨2, 0, 0, "2.0.0"⟩
      ⟨⟨1, 0, 0, "1.0.0"⟩, ⟨3, 0, 0, "3.0.0"⟩, .le, .lt⟩ = true := by
  decide

/-- The constraint of the self-dependent package used to exhibit
non-termination of the solver. -/
def selfDepConstraint : IConstraint :=
  ⟨⟨1, 0, 0, "1.0.0"⟩, ⟨2, 0, 0, "2.0.0"⟩, .le, .lt⟩

/-- A one-entry cache whose single release depends on its own package. -/
def selfDepCache : PackageCache :=
  [("a", [⟨⟨1, 0, 0, "1.0.0"⟩, [("a", selfDepConstraint)]⟩])]

/-- Once `a` is pending and already solved at `1.0.0`, the worker
re-derives exactly the same state: the single candidate passes both
filters, `combineDeps` re-introduces the self-dependency, and
`mapSet` overwrites the solution with the same version, so the recursion
never makes progress and exhausts any fuel. -/
theorem selfDep_loop_stuck :
    ∀ n, solveDependenciesWorker selfDepCache n
      [("a", selfDepConstraint)] [("a", ⟨1, 0, 0, "1.0.0"⟩)] = none := by
  intro n
  induction n with
  | zero => rfl
  | succ n ih =>
    have h1 : solveDependenciesWorker selfDepCache (n + 1)
        [("a", selfDepConstraint)] [("a", ⟨1, 0, 0, "1.0.0"⟩)] =
        (match solveDependenciesWorker selfDepCache n
            [("a", selfDepConstraint)] [("a", ⟨1, 0, 0, "1.0.0"⟩)] with
         | none => none
         | some none => some none
         | some (some r) => solveDependenciesWorker selfDepCache n r.pending r.solutions) :=
      rfl
    rw [h1, ih]

/-- Claim C5 (code bug): on the self-dependent cache the worker never
returns, whatever the recursion budget — the recursion reaches the same
`(pending, solutions)` state again and again, so the TS original
recurses forever. -/
theorem C5_nontermination :
    ∀ fuel, solveDependenciesWorker selfDepCache fuel
      [("a", selfDepConstraint)] [] = none := by
  intro fuel
  cases fuel with
  | zero => rfl
  | succ n =>
    have h1 : solveDependenciesWorker selfDepCache (n + 1)
        [("a", selfDepConstraint)] [] =
        (match solveDependenciesWorker selfDepCache n
            [("a", selfDepConstraint)] [("a", ⟨1, 0, 0, "1.0.0"⟩)] with
         | none => none
         | some none => some none
         | some (some r) => solveDependenciesWorker selfDepCache n r.pending r.solutions) :=
      rfl
    rw [h1, selfDep_loop_stuck n]

/-! ## Map and combine lemmas for the solver proofs -/

theorem mapGet_mem {α : Type} {m : List (String × α)} {k : String} {v : α}
    (h : mapGet m k = some v) : (k, v) ∈ m := by
  induction m with
  | nil => cases h
  | cons p rest ih =>
    obtain ⟨k', v'⟩ := p
    unfold mapGet at h
    split at h
    · injection h with h
      subst h
      simp_all
    · simp [ih h]

theorem mapGet_mapSet {α : Type} (m : List (String × α)) (k : String) (v : α) (p : String) :
    mapGet (mapSet m k v) p = if k = p then some v else mapGet m p := by
  induction m with
  | nil => rfl
  | cons q rest ih =>
    obtain ⟨k', v'⟩ := q
    unfold mapSet
    by_cases h : k' = k
    · rw [if_pos h]
      subst h
      by_cases hp : k' = p <;> simp [mapGet, hp]
    · rw [if_neg h]
      by_cases hp : k' = p
      · have hkp : ¬ k = p := fun hh => h (hp.trans hh.symm)
        simp [mapGet, hp, hkp]
      · simp only [mapGet, if_neg hp]
        exact ih

theorem mapGet_mapDelete {α : Type} (m : List (String × α)) (k p : String) :
    mapGet (mapDelete m k) p = if p = k then none else mapGet m p := by
  induction m with
  | nil =>
    unfold mapDelete mapGet
    split <;> rfl
  | cons q rest ih =>
    obtain ⟨k', v'⟩ := q
    unfold mapDelete
    by_cases h : k' = k
    · rw [if_pos h]
      subst h
      rw [ih]
      by_cases hp : p = k'
      · rw [if_pos hp, if_pos hp]
      · rw [if_neg hp, if_neg hp]
        have h2 : mapGet ((k', v') :: rest) p = mapGet rest p := by
          simp only [mapGet]
          rw [if_neg (fun hh => hp hh.symm)]
        rw [h2]
    · rw [if_neg h]
      by_cases hp : k' = p
      · subst hp
        simp [mapGet, h]
      · have h2 : mapGet ((k', v') :: rest) p = mapGet rest p := by
          simp only [mapGet]
          rw [if_neg hp]
        have h3 : mapGet ((k', v') :: mapDelete rest k) p = mapGet (mapDelete rest k) p := by
          simp only [mapGet]
          rw [if_neg hp]
        rw [h2, h3, ih]

theorem mem_mapKeys_of_get {α : Type} {m : List (String × α)} {k : String} {v : α}
    (h : mapGet m k = some v) : k ∈ mapKeys m := by
  have := mapGet_mem h
  unfold mapKeys
  exact List.mem_map.mpr ⟨(k, v), this, rfl⟩

theorem mapGet_isSome_of_mem_keys {α : Type} {m : List (String × α)} {k : String}
    (h : k ∈ mapKeys m) : (mapGet m k).isSome = true := by
  induction m with
  | nil => simp [mapKeys] at h
  | cons q rest ih =>
    obtain ⟨k', v'⟩ := q
    unfold mapGet
    split
    · rfl
    · apply ih
      simp only [mapKeys, List.map_cons, List.mem_cons] at h
      rcases h with h | h
      · exact absurd h.symm ‹¬ k' = k›
      · exact h

theorem foldl_min_mem (ks : List String) (a : String) :
    (ks.foldl (fun a b => if b < a then b else a) a) ∈ a :: ks := by
  induction ks generalizing a with
  | nil => simp
  | cons b bs ih =>
    simp only [List.foldl_cons]
    rcases List.mem_cons.mp (ih (if b < a then b else a)) with h | h
    · rw [h]
      by_cases hba : b < a
      · rw [if_pos hba]
        simp
      · rw [if_neg hba]
        simp
    · exact List.mem_cons_of_mem a (List.mem_cons_of_mem b h)

theorem minKey?_mem {l : List String} {k : String} (h : minKey? l = some k) : k ∈ l := by
  cases l with
  | nil => cases h
  | cons a ks =>
    unfold minKey? at h
    injection h with h
    rw [← h]
    exact foldl_min_mem ks a

theorem minKey?_eq_none {l : List String} (h : minKey? l = none) : l = [] := by
  cases l with
  | nil => rfl
  | cons a ks => cases h

theorem pickDep_some {deps : DepMap} {name : String} {c : IConstraint}
    (h : pickDep deps = some (name, c)) : mapGet deps name = some c := by
  unfold pickDep at h
  cases hm : minKey? (mapKeys deps) with
  | none => rw [hm] at h; cases h
  | some k =>
    rw [hm, Option.some_bind] at h
    cases hg : mapGet deps k with
    | none => rw [hg] at h; cases h
    | some c' =>
      rw [hg, Option.map_some'] at h
      injection h with h
      injection h with h1 h2
      subst h1
      subst h2
      exact hg

theorem pickDep_none {deps : DepMap} (h : pickDep deps = none) : deps = [] := by
  unfold pickDep at h
  cases hm : minKey? (mapKeys deps) with
  | none =>
    have := minKey?_eq_none hm
    cases deps with
    | nil => rfl
    | cons p rest => simp [mapKeys] at this
  | some k =>
    rw [hm, Option.some_bind] at h
    cases hg : mapGet deps k with
    | none =>
      have := mapGet_isSome_of_mem_keys (minKey?_mem hm)
      rw [hg] at this
      cases this
    | some c' =>
      rw [hg, Option.map_some'] at h
      cases h

theorem mem_dedupKeysAux (l : List String) :
    ∀ (seen : List String) (q : String),
      q ∈ dedupKeysAux seen l ↔ (q ∈ l ∧ q ∉ seen) := by
  induction l with
  | nil => simp [dedupKeysAux]
  | cons k ks ih =>
    intro seen q
    unfold dedupKeysAux
    by_cases hk : k ∈ seen
    · rw [if_pos hk, ih]
      constructor
      · rintro ⟨h1, h2⟩
        exact ⟨List.mem_cons_of_mem _ h1, h2⟩
      · rintro ⟨h1, h2⟩
        rcases List.mem_cons.mp h1 with h | h
        · subst h
          exact absurd hk h2
        · exact ⟨h, h2⟩
    · rw [if_neg hk]
      constructor
      · intro h
        rcases List.mem_cons.mp h with h | h
        · subst h
          exact ⟨List.mem_cons_self _ _, hk⟩
        · rw [ih] at h
          obtain ⟨h1, h2⟩ := h
          refine ⟨List.mem_cons_of_mem _ h1, fun hq => h2 (List.mem_cons_of_mem _ hq)⟩
      · rintro ⟨h1, h2⟩
        by_cases hqk : q = k
        · subst hqk
          exact List.mem_cons_self _ _
        · rcases List.mem_cons.mp h1 with h | h
          · exact absurd h hqk
          · refine List.mem_cons_of_mem _ ?_
            rw [ih]
            refine ⟨h, fun hq => ?_⟩
            rcases List.mem_cons.mp hq with h' | h'
            · exact hqk h'
            · exact h2 h'

theorem mem_dedupKeys (l : List String) (q : String) : q ∈ dedupKeys l ↔ q ∈ l := by
  unfold dedupKeys
  rw [mem_dedupKeysAux]
  simp

theorem combineDepsAux_get (a b : DepMap) :
    ∀ (ks : List String) (m : DepMap), combineDepsAux a b ks = some m →
      ∀ q, mapGet m q = if q ∈ ks then combinedGet a b q else none := by
  intro ks
  induction ks with
  | nil =>
    intro m h q
    unfold combineDepsAux at h
    injection h with h
    subst h
    simp [mapGet]
  | cons k ks ih =>
    intro m h q
    unfold combineDepsAux at h
    split at h
    · cases h
    · rename_i i hc
      cases hrest : combineDepsAux a b ks with
      | none => rw [hrest] at h; cases h
      | some rest =>
        rw [hrest, Option.map_some'] at h
        injection h with h
        subst h
        by_cases hq : k = q
        · subst hq
          simp only [mapGet, if_pos rfl, List.mem_cons, true_or, if_true]
          exact hc.symm
        · simp only [mapGet, if_neg hq]
          rw [ih rest hrest q]
          by_cases hmem : q ∈ ks
          · rw [if_pos hmem, if_pos (List.mem_cons_of_mem _ hmem)]
          · rw [if_neg hmem,
              if_neg (fun hk => (List.mem_cons.mp hk).elim (fun he => hq he.symm) hmem)]

theorem combineDepsAux_isSome (a b : DepMap) :
    ∀ (ks : List String) (m : DepMap), combineDepsAux a b ks = some m →
      ∀ q ∈ ks, (combinedGet a b q).isSome = true := by
  intro ks
  induction ks with
  | nil => simp
  | cons k ks ih =>
    intro m h q hq
    unfold combineDepsAux at h
    split at h
    · cases h
    · rename_i i hc
      cases hrest : combineDepsAux a b ks with
      | none => rw [hrest] at h; cases h
      | some rest =>
        rcases List.mem_cons.mp hq with h' | h'
        · subst h'
          rw [hc]
          rfl
        · exact ih rest hrest q h'

theorem combineDeps_get {a b m : DepMap} (h : combineDeps a b = some m) (q : String) :
    mapGet m q = combinedGet a b q := by
  unfold combineDeps at h
  have hg := combineDepsAux_get a b _ m h q
  by_cases hq : q ∈ dedupKeys (mapKeys a ++ mapKeys b)
  · rw [hg, if_pos hq]
  · rw [hg, if_neg hq]
    rw [mem_dedupKeys, List.mem_append] at hq
    push_neg at hq
    have ha : mapGet a q = none := by
      cases h' : mapGet a q with
      | none => rfl
      | some v => exact absurd (mem_mapKeys_of_get h') hq.1
    have hb : mapGet b q = none := by
      cases h' : mapGet b q with
      | none => rfl
      | some v => exact absurd (mem_mapKeys_of_get h') hq.2
    unfold combinedGet
    rw [ha, hb]

theorem combineDeps_isSome {a b m : DepMap} (h : combineDeps a b = some m) {q : String}
    (hq : q ∈ mapKeys a ∨ q ∈ mapKeys b) : (combinedGet a b q).isSome = true := by
  unfold combineDeps at h
  refine combineDepsAux_isSome a b _ m h q ?_
  rw [mem_dedupKeys, List.mem_append]
  exact hq

/-- Intersection of well-formed constraints is well-formed. -/
theorem constraintIntersect_wf {c1 c2 i : IConstraint}
    (h1 : wfC c1 = true) (h2 : wfC c2 = true)
    (hi : constraintIntersect c1 c2 = some i) : wfC i = true := by
  rw [constraintIntersect_eq_spec h1 h2] at hi
  exact specConstraintIntersect_wf h1 h2 hi

/-- Every cache entry carries a well-formed version and well-formed
dependency constraints (the data-model invariant of §4.2). -/
def wfCache (cache : PackageCache) : Prop :=
  ∀ pr ∈ cache, ∀ e ∈ pr.2,
    wfV e.version = true ∧ ∀ qc ∈ e.dependencies, wfC qc.2 = true

/-- At most one entry per `(name, version string)`: two entries of the
same package whose version strings coincide are the same entry. -/
def uniqueCache (cache : PackageCache) : Prop :=
  ∀ pr ∈ cache, ∀ e1 ∈ pr.2, ∀ e2 ∈ pr.2,
    e1.version.string = e2.version.string → e1 = e2

/-- Every solved version was taken from the cache. -/
def solsInCache (cache : PackageCache) (sols : SolMap) : Prop :=
  ∀ p v, mapGet sols p = some v → ∃ e ∈ cacheGet cache p, e.version = v

/-- Every pending constraint is well-formed. -/
def wfDepsGet (deps : DepMap) : Prop :=
  ∀ q c, mapGet deps q = some c → wfC c = true

instance (cache : PackageCache) : Decidable (wfCache cache) := by
  unfold wfCache; infer_instance

instance (cache : PackageCache) : Decidable (uniqueCache cache) := by
  unfold uniqueCache; infer_instance

theorem cacheGet_cases {cache : PackageCache} {name : String} {e : IElmPackage}
    (he : e ∈ cacheGet cache name) :
    ∃ l, mapGet cache name = some l ∧ e ∈ l := by
  unfold cacheGet at he
  cases h : mapGet cache name with
  | none => rw [h] at he; cases he
  | some l =>
    rw [h] at he
    exact ⟨l, rfl, he⟩

theorem wfCache_entry {cache : PackageCache} {name : String} {e : IElmPackage}
    (hw : wfCache cache) (he : e ∈ cacheGet cache name) :
    wfV e.version = true ∧ ∀ qc ∈ e.dependencies, wfC qc.2 = true := by
  obtain ⟨l, hl, hel⟩ := cacheGet_cases he
  exact hw (name, l) (mapGet_mem hl) e hel

theorem uniqueCache_entry {cache : PackageCache} {name : String} {e1 e2 : IElmPackage}
    (hu : uniqueCache cache) (h1 : e1 ∈ cacheGet cache name) (h2 : e2 ∈ cacheGet cache name)
    (hs : e1.version.string = e2.version.string) : e1 = e2 := by
  obtain ⟨l, hl, hel⟩ := cacheGet_cases h1
  obtain ⟨l', hl', hel'⟩ := cacheGet_cases h2
  rw [hl] at hl'
  injection hl' with hl'
  subst hl'
  exact hu (name, l) (mapGet_mem hl) e1 hel e2 hel' hs

/-- Every member of the computed candidate list comes from the cache,
satisfies the pending constraint and, when the package was already
solved, agrees with the solved version string. -/
theorem candidates_spec (cache : PackageCache) (sols : SolMap) (name : String)
    (constraint : IConstraint) {e : IElmPackage}
    (he : e ∈ candidates cache sols name constraint) :
    e ∈ cacheGet cache name ∧ versionSatifiesConstraint e.version constraint = true ∧
      ∀ sv, mapGet sols name = some sv → e.version.string = sv.string := by
  unfold candidates at he
  cases hs : mapGet sols name with
  | none =>
    rw [hs] at he
    rw [List.mem_reverse] at he
    have := List.mem_filter.mp he
    refine ⟨this.1, by simpa using this.2, ?_⟩
    intro sv h
    cases h
  | some sv =>
    rw [hs] at he
    have h2 := List.mem_filter.mp he
    rw [List.mem_reverse] at h2
    have h3 := List.mem_filter.mp h2.1
    refine ⟨h3.1, by simpa using h3.2, ?_⟩
    intro sv' hsv'
    injection hsv' with hsv'
    subst hsv'
    simpa using h2.2

/-- The solver invariant relating the final solution map to the initial
pending constraints, the initial partial solution and the cache. -/
def SolverInv (cache : PackageCache) (deps : DepMap) (sols : SolMap)
    (st : SolverState) : Prop :=
  (∀ p v, mapGet sols p = some v → mapGet st.solutions p = some v) ∧
  (∀ q c, mapGet deps q = some c →
    ∃ w, mapGet st.solutions q = some w ∧ versionSatifiesConstraint w c = true) ∧
  (∀ p v, mapGet st.solutions p = some v →
    mapGet sols p = some v ∨
      ∃ e, e ∈ cacheGet cache p ∧ e.version = v ∧
        ∀ q c, mapGet e.dependencies q = some c →
          ∃ w, mapGet st.solutions q = some w ∧ versionSatifiesConstraint w c = true)

theorem tryCandidates_pending {cache : PackageCache} {n : Nat}
    (IH : ∀ deps sols st, solveDependenciesWorker cache n deps sols = some (some st) →
      st.pending = []) :
    ∀ (cs : List IElmPackage) (rd : DepMap) (name : String) (sols : SolMap)
      (st : SolverState),
      tryCandidates (solveDependenciesWorker cache n) rd name sols cs = some (some st) →
      st.pending = [] := by
  intro cs
  induction cs with
  | nil =>
    intro rd name sols st h
    unfold tryCandidates at h
    simp at h
  | cons e rest ih =>
    intro rd name sols st h
    unfold tryCandidates at h
    split at h
    · exact ih rd name sols st h
    · rename_i tdeps hcomb
      split at h
      · cases h
      · exact ih rd name sols st h
      · rename_i r hrec
        exact IH r.pending r.solutions st h

theorem worker_pending_empty {cache : PackageCache} :
    ∀ (n : Nat) (deps : DepMap) (sols : SolMap) (st : SolverState),
      solveDependenciesWorker cache n deps sols = some (some st) → st.pending = [] := by
  intro n
  induction n with
  | zero =>
    intro deps sols st h
    cases h
  | succ n ih =>
    intro deps sols st h
    unfold solveDependenciesWorker at h
    split at h
    · rename_i hp
      injection h with h
      injection h with h
      subst h
      exact pickDep_none hp
    · rename_i nc hp
      exact tryCandidates_pending ih _ _ _ _ _ h

theorem combinedGet_eq_left {a b : DepMap} {q : String} {v1 : IConstraint}
    (ha : mapGet a q = some v1) (hb : mapGet b q = none) :
    combinedGet a b q = some v1 := by
  unfold combinedGet
  rw [ha, hb]

theorem combinedGet_eq_right {a b : DepMap} {q : String} {v2 : IConstraint}
    (ha : mapGet a q = none) (hb : mapGet b q = some v2) :
    combinedGet a b q = some v2 := by
  unfold combinedGet
  rw [ha, hb]

theorem combinedGet_eq_both {a b : DepMap} {q : String} {v1 v2 : IConstraint}
    (ha : mapGet a q = some v1) (hb : mapGet b q = some v2) :
    combinedGet a b q = constraintIntersect v1 v2 := by
  unfold combinedGet
  rw [ha, hb]

theorem tryCandidates_sound {cache : PackageCache} (hwc : wfCache cache)
    (huc : uniqueCache cache) {n : Nat}
    (IH : ∀ deps sols st, wfDepsGet deps → solsInCache cache sols →
      solveDependenciesWorker cache n deps sols = some (some st) →
      SolverInv cache deps sols st)
    {deps : DepMap} {name : String} {constraint : IConstraint} {sols : SolMap}
    (hdeps : wfDepsGet deps) (hsols : solsInCache cache sols)
    (hget : mapGet deps name = some constraint) :
    ∀ (cs : List IElmPackage),
      (∀ e ∈ cs, e ∈ cacheGet cache name ∧
        versionSatifiesConstraint e.version constraint = true ∧
        ∀ sv, mapGet sols name = some sv → e.version.string = sv.string) →
      ∀ st, tryCandidates (solveDependenciesWorker cache n) (mapDelete deps name)
        name sols cs = some (some st) →
      SolverInv cache deps sols st := by
  intro cs
  induction cs with
  | nil =>
    intro _ st h
    unfold tryCandidates at h
    simp at h
  | cons e rest ihcs =>
    intro hprop st h
    unfold tryCandidates at h
    split at h
    · exact ihcs (fun e' he' => hprop e' (List.mem_cons_of_mem _ he')) st h
    · rename_i tdeps hcomb
      split at h
      · cases h
      · exact ihcs (fun e' he' => hprop e' (List.mem_cons_of_mem _ he')) st h
      · rename_i r1 hrec
        obtain ⟨hemem, hesat, hestr⟩ := hprop e (List.mem_cons_self _ _)
        obtain ⟨hev, hedeps⟩ := wfCache_entry hwc hemem
        have hwfb : ∀ q c, mapGet e.dependencies q = some c → wfC c = true :=
          fun q c hq => hedeps (q, c) (mapGet_mem hq)
        have hdel : wfDepsGet (mapDelete deps name) := by
          intro q c hq
          rw [mapGet_mapDelete] at hq
          split at hq
          · cases hq
          · exact hdeps q c hq
        have hwtd : wfDepsGet tdeps := by
          intro q c hq
          rw [combineDeps_get hcomb] at hq
          unfold combinedGet at hq
          split at hq
          · rename_i v1 v2 heq1 heq2
            exact constraintIntersect_wf (hdel q v1 heq1) (hwfb q v2 heq2) hq
          · rename_i v1 heq1 heq2
            injection hq with hq
            subst hq
            exact hdel q v1 heq1
          · rename_i v2 heq1 heq2
            injection hq with hq
            subst hq
            exact hwfb q v2 heq2
          · cases hq
        have hsols' : solsInCache cache (mapSet sols name e.version) := by
          intro p v hv
          rw [mapGet_mapSet] at hv
          split at hv
          · rename_i hnp
            injection hv with hv
            subst hv
            subst hnp
            exact ⟨e, hemem, rfl⟩
          · exact hsols p v hv
        have inv1 := IH tdeps (mapSet sols name e.version) r1 hwtd hsols' hrec
        have hr1p : r1.pending = [] :=
          worker_pending_empty n tdeps (mapSet sols name e.version) r1 hrec
        have hwr1 : wfDepsGet r1.pending := by
          rw [hr1p]
          intro q c hq
          cases hq
        obtain ⟨A1, B1, C1⟩ := inv1
        have hsolr1 : solsInCache cache r1.solutions := by
          intro p v hv
          rcases C1 p v hv with hold | ⟨e2, he2, hev2, -⟩
          · exact hsols' p v hold
          · exact ⟨e2, he2, hev2⟩
        have inv2 := IH r1.pending r1.solutions st hwr1 hsolr1 h
        obtain ⟨A2, B2, C2⟩ := inv2
        have compA : ∀ p v, mapGet sols p = some v → mapGet st.solutions p = some v := by
          intro p v hv
          apply A2
          apply A1
          rw [mapGet_mapSet]
          by_cases hnp : name = p
          · subst hnp
            rw [if_pos rfl]
            have hstr := hestr v hv
            obtain ⟨e0, he0, hev0⟩ := hsols name v hv
            have he0e : e = e0 := uniqueCache_entry huc hemem he0 (by rw [hstr, hev0])
            rw [he0e, hev0]
          · rw [if_neg hnp]
            exact hv
        have htd_sat : ∀ q i, mapGet tdeps q = some i →
            ∃ w, mapGet st.solutions q = some w ∧
              versionSatifiesConstraint w i = true := by
          intro q i hq
          obtain ⟨w, hw, hsat⟩ := B1 q i hq
          exact ⟨w, A2 q w hw, hsat⟩
        have hwf_st : ∀ q w, mapGet st.solutions q = some w → wfV w = true := by
          intro q w hw
          rcases C2 q w hw with hold | ⟨e2, he2, hev2, -⟩
          · obtain ⟨e2, he2, hev2⟩ := hsolr1 q w hold
            rw [← hev2]
            exact (wfCache_entry hwc he2).1
          · rw [← hev2]
            exact (wfCache_entry hwc he2).1
        have compB : ∀ q c, mapGet deps q = some c →
            ∃ w, mapGet st.solutions q = some w ∧
              versionSatifiesConstraint w c = true := by
          intro q c hq
          by_cases hnq : q = name
          · subst hnq
            rw [hget] at hq
            injection hq with hq
            subst hq
            refine ⟨e.version, ?_, hesat⟩
            apply A2
            apply A1
            rw [mapGet_mapSet, if_pos rfl]
          · have hq' : mapGet (mapDelete deps name) q = some c := by
              rw [mapGet_mapDelete, if_neg hnq]
              exact hq
            cases hb : mapGet e.dependencies q with
            | none =>
              have hcg : mapGet tdeps q = some c := by
                rw [combineDeps_get hcomb, combinedGet_eq_left hq' hb]
              exact htd_sat q c hcg
            | some cb =>
              have hsome : (combinedGet (mapDelete deps name) e.dependencies q).isSome = true :=
                combineDeps_isSome hcomb (Or.inl (mem_mapKeys_of_get hq'))
              rw [combinedGet_eq_both hq' hb] at hsome
              obtain ⟨i, hi⟩ := Option.isSome_iff_exists.mp hsome
              have hcg : mapGet tdeps q = some i := by
                rw [combineDeps_get hcomb, combinedGet_eq_both hq' hb, hi]
              obtain ⟨w, hw, hsat⟩ := htd_sat q i hcg
              have hff := (intersect_sat_iff (hdeps q c hq) (hwfb q cb hb)
                (hwf_st q w hw) hi).mp hsat
              exact ⟨w, hw, hff.1⟩
        have compC : ∀ p v, mapGet st.solutions p = some v →
            mapGet sols p = some v ∨
              ∃ e', e' ∈ cacheGet cache p ∧ e'.version = v ∧
                ∀ q c, mapGet e'.dependencies q = some c →
                  ∃ w, mapGet st.solutions q = some w ∧
                    versionSatifiesConstraint w c = true := by
          intro p v hv
          rcases C2 p v hv with hr1 | hdone
          · rcases C1 p v hr1 with hts | ⟨e1, he1, hev1, hd1⟩
            · rw [mapGet_mapSet] at hts
              by_cases hnp : name = p
              · rw [if_pos hnp] at hts
                injection hts with hts
                subst hnp
                refine Or.inr ⟨e, hemem, hts, ?_⟩
                intro q c hqc
                cases haq : mapGet (mapDelete deps name) q with
                | none =>
                  have hcg : mapGet tdeps q = some c := by
                    rw [combineDeps_get hcomb, combinedGet_eq_right haq hqc]
                  exact htd_sat q c hcg
                | some ca =>
                  have hsome :
                      (combinedGet (mapDelete deps name) e.dependencies q).isSome = true :=
                    combineDeps_isSome hcomb (Or.inr (mem_mapKeys_of_get hqc))
                  rw [combinedGet_eq_both haq hqc] at hsome
                  obtain ⟨i, hi⟩ := Option.isSome_iff_exists.mp hsome
                  have hcg : mapGet tdeps q = some i := by
                    rw [combineDeps_get hcomb, combinedGet_eq_both haq hqc, hi]
                  obtain ⟨w, hw, hsat⟩ := htd_sat q i hcg
                  have hff := (intersect_sat_iff (hdel q ca haq) (hwfb q c hqc)
                    (hwf_st q w hw) hi).mp hsat
                  exact ⟨w, hw, hff.2⟩
              · rw [if_neg hnp] at hts
                exact Or.inl hts
            · refine Or.inr ⟨e1, he1, hev1, ?_⟩
              intro q c hqc
              obtain ⟨w, hw, hsat⟩ := hd1 q c hqc
              exact ⟨w, A2 q w hw, hsat⟩
          · exact Or.inr hdone
        exact ⟨compA, compB, compC⟩

/-- Soundness of the worker: a successful run extends the given partial
solution, satisfies every pending constraint, and every newly selected
version's cache dependencies are satisfied in the final solution. -/
theorem worker_sound {cache : PackageCache} (hwc : wfCache cache)
    (huc : uniqueCache cache) :
    ∀ (n : Nat) (deps : DepMap) (sols : SolMap) (st : SolverState),
      wfDepsGet deps → solsInCache cache sols →
      solveDependenciesWorker cache n deps sols = some (some st) →
      SolverInv cache deps sols st := by
  intro n
  induction n with
  | zero =>
    intro deps sols st _ _ h
    cases h
  | succ n ih =>
    intro deps sols st hdeps hsols h
    unfold solveDependenciesWorker at h
    split at h
    · rename_i hp
      injection h with h
      injection h with h
      subst h
      have hde : deps = [] := pickDep_none hp
      subst hde
      refine ⟨fun p v hv => hv, ?_, fun p v hv => Or.inl hv⟩
      intro q c hq
      cases hq
    · rename_i name constraint hp
      have hget : mapGet deps name = some constraint := pickDep_some hp
      exact tryCandidates_sound hwc huc ih hdeps hsols hget _
        (fun e he => candidates_spec cache sols name constraint he) st h

/-- Claim C2: if `solveDependencies` returns a solution (under the
data-model invariants: well-formed version strings in cache and root
constraints, and at most one cache entry per `(name, version string)`),
then every dependency declared by the cache entry of each selected
`(p, v)` is mapped to a satisfying version, and every root constraint is
satisfied by the chosen version of its package. -/
theorem C2_solveDependencies_sound :
    ∀ (fuel : Nat) (cache : PackageCache) (deps : DepMap) (sol : SolMap),
      wfCache cache → uniqueCache cache → (∀ qc ∈ deps, wfC qc.2 = true) →
      solveDependencies fuel cache deps = some (some sol) →
      (∀ p v, mapGet sol p = some v →
        ∀ e ∈ cacheGet cache p, e.version.string = v.string →
          ∀ q c, mapGet e.dependencies q = some c →
            ∃ w, mapGet sol q = some w ∧ versionSatifiesConstraint w c = true) ∧
      (∀ q c, mapGet deps q = some c →
        ∃ w, mapGet sol q = some w ∧ versionSatifiesConstraint w c = true) := by
  intro fuel cache deps sol hwc huc hdeps hrun
  unfold solveDependencies at hrun
  cases hw : solveDependenciesWorker cache fuel deps [] with
  | none => rw [hw] at hrun; cases hrun
  | some r =>
    cases r with
    | none => rw [hw] at hrun; cases hrun
    | some st =>
      rw [hw] at hrun
      injection hrun with hrun
      injection hrun with hrun
      subst hrun
      have hdg : wfDepsGet deps := fun q c hq => hdeps (q, c) (mapGet_mem hq)
      have hsc : solsInCache cache [] := by
        intro p v hv
        cases hv
      obtain ⟨-, hB, hC⟩ := worker_sound hwc huc fuel deps [] st hdg hsc hw
      refine ⟨?_, hB⟩
      intro p v hv e' he' hstr q c hqc
      rcases hC p v hv with hnil | ⟨e0, he0, hev0, hd0⟩
      · cases hnil
      · have he0' : e' = e0 :=
          uniqueCache_entry huc he' he0 (by rw [hstr, hev0])
        subst he0'
        exact hd0 q c hqc

/-- Witness for `C2_solveDependencies_sound` at a concrete input: a
two-package cache where `a@1.0.0` depends on `b` and the solver selects
both. -/
theorem C2_solveDependencies_sound_witness :
    (∀ p v, mapGet [("a", (⟨1, 0, 0, "1.0.0"⟩ : IVersion)), ("b", ⟨2, 0, 0, "2.0.0"⟩)] p =
        some v →
      ∀ e ∈ cacheGet
          [("a", [⟨⟨1, 0, 0, "1.0.0"⟩,
            [("b", ⟨⟨2, 0, 0, "2.0.0"⟩, ⟨3, 0, 0, "3.0.0"⟩, .le, .lt⟩)]⟩]),
           ("b", [⟨⟨2, 0, 0, "2.0.0"⟩, []⟩])] p,
        e.version.string = v.string →
        ∀ q c, mapGet e.dependencies q = some c →
          ∃ w, mapGet [("a", (⟨1, 0, 0, "1.0.0"⟩ : IVersion)),
              ("b", ⟨2, 0, 0, "2.0.0"⟩)] q = some w ∧
            versionSatifiesConstraint w c = true) ∧
    (∀ q c, mapGet [("a", ⟨⟨1, 0, 0, "1.0.0"⟩, ⟨2, 0, 0, "2.0.0"⟩, .le, .lt⟩)] q =
        some c →
      ∃ w, mapGet [("a", (⟨1, 0, 0, "1.0.0"⟩ : IVersion)),
          ("b", ⟨2, 0, 0, "2.0.0"⟩)] q = some w ∧
        versionSatifiesConstraint w c = true) :=
  C2_solveDependencies_sound 4
    [("a", [⟨⟨1, 0, 0, "1.0.0"⟩,
      [("b", ⟨⟨2, 0, 0, "2.0.0"⟩, ⟨3, 0, 0, "3.0.0"⟩, .le, .lt⟩)]⟩]),
     ("b", [⟨⟨2, 0, 0, "2.0.0"⟩, []⟩])]
    [("a", ⟨⟨1, 0, 0, "1.0.0"⟩, ⟨2, 0, 0, "2.0.0"⟩, .le, .lt⟩)]
    [("a", ⟨1, 0, 0, "1.0.0"⟩), ("b", ⟨2, 0, 0, "2.0.0"⟩)]
    (by decide) (by decide) (by decide) (by decide)

/-! ## Providers: hover (`hoverProvider.ts`) and move refactoring
(`moveRefactoringHandler.ts`)

The tree-sitter and LSP data the handlers traverse. -/

/-- A `(row, column)` point (tree-sitter `Point` / LSP `Position`). -/
structure Pos where
  row : Int
  column : Int
deriving DecidableEq, Repr

/-- An LSP range; `stop` is LSP's `end` (a Lean keyword). -/
structure Range where
  start : Pos
  stop : Pos
deriving DecidableEq, Repr

/-- An LSP `TextEdit`. -/
structure TextEdit where
  range : Range
  newText : String
deriving DecidableEq, Repr

/-- `TextEdit.del`: replace the range with the empty string. -/
def TextEdit.del (r : Range) : TextEdit := ⟨r, ""⟩

/-- `TextEdit.insert`: insert text at a point. -/
def TextEdit.insert (p : Pos) (text : String) : TextEdit := ⟨⟨p, p⟩, text⟩

/-- A tree-sitter `SyntaxNode`, restricted to the fields the handlers
read; parent/sibling links are modelled as data. -/
inductive SyntaxNode where
  | mk (type text : String) (startPosition endPosition : Pos)
      (parent previousNamedSibling nextNamedSibling : Option SyntaxNode)

def SyntaxNode.type : SyntaxNode → String
  | .mk t _ _ _ _ _ _ => t

def SyntaxNode.text : SyntaxNode → String
  | .mk _ t _ _ _ _ _ => t

def SyntaxNode.startPosition : SyntaxNode → Pos
  | .mk _ _ s _ _ _ _ => s

def SyntaxNode.endPosition : SyntaxNode → Pos
  | .mk _ _ _ e _ _ _ => e

def SyntaxNode.parent : SyntaxNode → Option SyntaxNode
  | .mk _ _ _ _ p _ _ => p

def SyntaxNode.previousNamedSibling : SyntaxNode → Option SyntaxNode
  | .mk _ _ _ _ _ p _ => p

def SyntaxNode.nextNamedSibling : SyntaxNode → Option SyntaxNode
  | .mk _ _ _ _ _ _ n => n

/-- A parsed tree (`web-tree-sitter`'s `Tree`), reduced to its root. -/
structure Tree where
  rootNode : SyntaxNode

/-- `ITreeContainer` of `src/forest`, reduced to the field the hover
handler reads. -/
structure ITreeContainer where
  tree : Tree

/-- One entry of `getEmptyTypes()` (`elmUtils.ts:65-85`). -/
structure EmptyTypeInfo where
  markdown : String
  name : String
  symbolKind : Nat
deriving DecidableEq, Repr

/-- `getEmptyTypes` (`elmUtils.ts:65-85`): the one grammar-intrinsic type
with no source definition.  `CompletionItemKind.Enum` is the numeral 13
of the LSP enumeration. -/
def getEmptyTypes : List EmptyTypeInfo :=
  [{ markdown := "An `List` is a list of items. Every item must be of the same type. Valid syntax for lists includes:\n\n    []\n    [42, 43]\n    [\"one\", \"two\", \"three\"]\n    [3.14, 0.1234]\n    ['a', 'Z', '0']\n\n    ",
     name := "List",
     symbolKind := 13 }]

/-- The resolver's result (`{node, uri, nodeType}`); `nodeType` is the
`NodeType` string union of `treeUtils.ts`. -/
structure DefinitionNode where
  node : SyntaxNode
  uri : String
  nodeType : String

/-- An LSP hover: markup kind (`"markdown"`) and value. -/
structure Hover where
  kind : String
  value : String
deriving DecidableEq, Repr

/-- Modelled from the spec: the collaborators the hover handler calls
that are not under `src/` — `TreeUtils.getNamedDescendantForPosition`
(§4.8 step 1: total, returns the smallest named descendant covering the
position), `TreeUtils.findDefinitionNodeByReferencingNode` (§4.8 step 3:
a `DefinitionNode` or `None`; the `imports` argument is captured here),
and `HintHelper.createHint`/`createHintFromFunctionParameter` (display
text or `undefined`). -/
structure HoverEnv where
  getNamedDescendantForPosition : SyntaxNode → Pos → SyntaxNode
  findDefinitionNodeByReferencingNode : SyntaxNode → String → Tree → Option DefinitionNode
  createHintFromFunctionParameter : SyntaxNode → Option String
  createHint : SyntaxNode → Option String

/-- `createMarkdownHoverFromDefinition` (`hoverProvider.ts:88-110`). -/
def createMarkdownHoverFromDefinition (env : HoverEnv)
    (definitionNode : Option DefinitionNode) : Option Hover :=
  match definitionNode with
  | some definitionNode =>
    let value :=
      if definitionNode.nodeType = "FunctionParameter" ∨
          definitionNode.nodeType = "AnonymousFunctionParameter" ∨
          definitionNode.nodeType = "CasePattern" then
        env.createHintFromFunctionParameter definitionNode.node
      else env.createHint definitionNode.node
    match value with
    | some v => some ⟨"markdown", v⟩
    | none => none
  | none => none

/-- `handleHoverRequest` (`hoverProvider.ts:32-86`); the commented-out
type-inference block of the source is omitted, and the absent result
(`undefined`) is `none`. -/
def handleHoverRequest (env : HoverEnv) (forest : List (String × ITreeContainer))
    (uri : String) (position : Pos) : Option Hover :=
  match mapGet forest uri with
  | none => none
  | some tree =>
    let nodeAtPosition := env.getNamedDescendantForPosition tree.tree.rootNode position
    match env.findDefinitionNodeByReferencingNode nodeAtPosition uri tree.tree with
    | some definitionNode => createMarkdownHoverFromDefinition env (some definitionNode)
    | none =>
      match getEmptyTypes.find? (fun a => a.name == nodeAtPosition.text) with
      | some specialMatch => some ⟨"markdown", specialMatch.markdown⟩
      | none => none

/-- Claim C9: a hover request with no tree for the URI, or whose node
resolves to no definition and matches no empty-type name, yields an
absent result (the embedding is total, so no exception is possible and
the absent result is literally `none`). -/
theorem C9_hover_absent :
    ∀ (env : HoverEnv) (forest : List (String × ITreeContainer)) (uri : String)
      (position : Pos),
      (mapGet forest uri = none → handleHoverRequest env forest uri position = none) ∧
      (∀ tree, mapGet forest uri = some tree →
        env.findDefinitionNodeByReferencingNode
          (env.getNamedDescendantForPosition tree.tree.rootNode position) uri tree.tree =
          none →
        (∀ et ∈ getEmptyTypes,
          et.name ≠ (env.getNamedDescendantForPosition tree.tree.rootNode position).text) →
        handleHoverRequest env forest uri position = none) := by
  intro env forest uri position
  constructor
  · intro h
    unfold handleHoverRequest
    rw [h]
  · intro tree htree hdef hname
    have hfind : getEmptyTypes.find?
        (fun a => a.name == (env.getNamedDescendantForPosition tree.tree.rootNode
          position).text) = none := by
      rw [List.find?_eq_none]
      intro x hx
      simpa using hname x hx
    simp only [handleHoverRequest, htree, hdef, hfind]

/-- Witness for `C9_hover_absent` at a concrete input: a one-file forest
whose node text is not an empty-type name and which resolves to no
definition. -/
theorem C9_hover_absent_witness :
    handleHoverRequest
      ⟨fun n _ => n, fun _ _ _ => none, fun _ => none, fun _ => none⟩
      [("file:///A.elm",
        ⟨⟨SyntaxNode.mk "lower_case_identifier" "foo" ⟨0, 0⟩ ⟨0, 3⟩ none none none⟩⟩)]
      "file:///A.elm" ⟨0, 1⟩ = none :=
  (C9_hover_absent ⟨fun n _ => n, fun _ _ _ => none, fun _ => none, fun _ => none⟩
      [("file:///A.elm",
        ⟨⟨SyntaxNode.mk "lower_case_identifier" "foo" ⟨0, 0⟩ ⟨0, 3⟩ none none none⟩⟩)]
      "file:///A.elm" ⟨0, 1⟩).2
    ⟨⟨SyntaxNode.mk "lower_case_identifier" "foo" ⟨0, 0⟩ ⟨0, 3⟩ none none none⟩⟩
    rfl rfl (by intro et het; simp [getEmptyTypes] at het; subst het; decide)

/-- JavaScript `String.prototype.slice` with UTF-16 indices modelled as
character indices (the URIs involved are ASCII): negative indices count
from the end, out-of-range indices clamp. -/
def jsSliceStr (s : String) (start : Int) (stop? : Option Int) : String :=
  let len : Int := s.length
  let norm : Int → Int := fun i => if i < 0 then max (len + i) 0 else min i len
  let a := norm start
  let b := norm (stop?.getD len)
  ((s.data.drop a.toNat).take (b - a).toNat).asString

/-- JavaScript `String.prototype.lastIndexOf` for a single-character
needle: the last index of the character, `-1` if absent. -/
def jsLastIndexOfChar (s : String) (c : Char) : Int :=
  match s.data.reverse.findIdx? (· = c) with
  | some i => ((s.data.length - 1 - i : Nat) : Int)
  | none => -1

/-- A `MoveDestination` of `protocol.ts`. -/
structure MoveDestination where
  name : String
  path : String
  uri : String
deriving DecidableEq, Repr

/-- One entry of `forest.treeIndex`, reduced to the two fields the
destination handler reads. -/
structure TreeInfo where
  uri : String
  writeable : Bool
deriving DecidableEq, Repr

/-- The response of the destinations request. -/
structure MoveDestinationsResponse where
  destinations : List MoveDestination
deriving DecidableEq, Repr

/-- `handleGetMoveDestinationsRequest` (`moveRefactoringHandler.ts:36-61`).
`fsPath` abstracts `URI.parse(uri).fsPath` (from `vscode-uri`, not part
of this repository); `rootPath` is `elmWorkspace.getRootPath().fsPath`. -/
def handleGetMoveDestinationsRequest (fsPath : String → String) (rootPath : String)
    (treeIndex : List TreeInfo) (sourceUri : String) : MoveDestinationsResponse :=
  ⟨(treeIndex.filter (fun tree => tree.writeable && (tree.uri != sourceUri))).map
    (fun tree =>
      let uri0 := fsPath tree.uri
      let uri1 := jsSliceStr uri0 ((rootPath.length : Int) + 1) none
      let index := jsLastIndexOfChar uri1 '\\'
      { name := jsSliceStr uri1 (index + 1) none,
        path := jsSliceStr uri1 0 (some index),
        uri := tree.uri })⟩

/-- Claim C10: the destinations are exactly one per writeable tree whose
URI differs from the request's source URI, in forest order and carrying
that tree's URI; in particular read-only trees and the source file never
appear. -/
theorem C10_move_destinations :
    ∀ (fsPath : String → String) (rootPath : String) (treeIndex : List TreeInfo)
      (sourceUri : String),
      ((handleGetMoveDestinationsRequest fsPath rootPath treeIndex
          sourceUri).destinations.map (fun d => d.uri) =
        (treeIndex.filter (fun tree => tree.writeable && (tree.uri != sourceUri))).map
          (fun tree => tree.uri)) ∧
      (∀ d ∈ (handleGetMoveDestinationsRequest fsPath rootPath treeIndex
          sourceUri).destinations,
        ∃ t ∈ treeIndex, t.writeable = true ∧ t.uri ≠ sourceUri ∧ d.uri = t.uri) := by
  intro fsPath rootPath treeIndex sourceUri
  constructor
  · unfold handleGetMoveDestinationsRequest
    rw [List.map_map]
    rfl
  · intro d hd
    unfold handleGetMoveDestinationsRequest at hd
    rw [List.mem_map] at hd
    obtain ⟨t, ht, hdt⟩ := hd
    rw [List.mem_filter] at ht
    refine ⟨t, ht.1, ?_, ?_, ?_⟩
    · exact (Bool.and_eq_true_iff.mp ht.2).1
    · have := (Bool.and_eq_true_iff.mp ht.2).2
      simpa using this
    · rw [← hdt]

/-- The request parameters of a move (`protocol.ts` `MoveParams`):
`rangeStart` is `params.params.range.start`, the only field of the inner
text-document params the handler reads. -/
structure MoveParams where
  sourceUri : String
  destination : Option MoveDestination
  rangeStart : Pos

/-- One element of `References.find`'s result, reduced to the fields the
move handler reads. -/
structure Reference where
  uri : String
  node : SyntaxNode

/-- Modelled from the spec: the collaborators of the move handler that
are not under `src/` — `TreeUtils.getNamedDescendantForPosition` and
`getModuleNameNode`, `References.find` (§4.8; called with
`{node, nodeType: "Function", uri}` plus the forest and imports, which
are captured here), and the four `RefactorEditUtils` edit builders, each
returning an edit or `undefined`. -/
structure MoveEnv where
  getNamedDescendantForPosition : SyntaxNode → Pos → SyntaxNode
  getModuleNameNode : Tree → Option SyntaxNode
  findReferences : SyntaxNode → String → List Reference
  unexposedValueInModule : Tree → String → Option TextEdit
  removeValueFromImport : Tree → String → String → Option TextEdit
  exposeValueInModule : Tree → String → Option TextEdit
  addImport : Tree → String → String → Option TextEdit

/-- The `changes` object of the handler: uri-keyed lists of edits. -/
abbrev Changes := List (String × List TextEdit)

/-- `changes[uri].push(edit)`.  On the handler's paths the key always
exists (JavaScript would throw on `undefined.push` otherwise), so the
nil case is unreachable. -/
def pushEdit : Changes → String → TextEdit → Changes
  | [], _, _ => []
  | (k', es) :: rest, k, e =>
    if k' = k then (k', es ++ [e]) :: rest else (k', es) :: pushEdit rest k e

/-- One iteration of the first `forEach` of `handleMoveRequest`
(`moveRefactoringHandler.ts:175-193`): create the uri's entry if absent,
then push the remove-import edit when the referencing tree exists and
the destination name is truthy and an edit is produced. -/
def removeImportStep (env : MoveEnv) (forest : List (String × Tree))
    (destination : MoveDestination) (moduleName functionName : String)
    (chs : Changes) (refUri : String) : Changes :=
  let chs := if (mapGet chs refUri).isNone then mapSet chs refUri [] else chs
  match mapGet forest refUri with
  | some refTree =>
    if destination.name != "" then
      match env.removeValueFromImport refTree moduleName functionName with
      | some removeImportEdit => pushEdit chs refUri removeImportEdit
      | none => chs
    else chs
  | none => chs

/-- One iteration of the second `forEach`
(`moveRefactoringHandler.ts:211-229`): skip the source file when it has
no remaining reference, else push the add-import edit when one is
produced for the referencing tree. -/
def addImportStep (env : MoveEnv) (forest : List (String × Tree)) (sourceUri : String)
    (sourceHasReference : Bool) (destinationModuleName functionName : String)
    (chs : Changes) (refUri : String) : Changes :=
  if refUri == sourceUri && !sourceHasReference then chs
  else match mapGet forest refUri with
    | some refTree =>
      match env.addImport refTree destinationModuleName functionName with
      | some importEdit => pushEdit chs refUri importEdit
      | none => chs
    | none => chs

/-- The `sourceHasReference` test (`moveRefactoringHandler.ts:155-161`). -/
def sourceHasReferenceB (sourceUri : String) (typeNode : Option SyntaxNode)
    (declarationNode : SyntaxNode) (references : List Reference) : Bool :=
  references.any (fun ref =>
    ref.uri == sourceUri &&
    !((ref.node.parent.map SyntaxNode.text) == (typeNode.map SyntaxNode.text)) &&
    !(((ref.node.parent.bind SyntaxNode.parent).map SyntaxNode.text) ==
      some declarationNode.text) &&
    ref.node.type != "exposed_value")

/-- The edit-staging body of `handleMoveRequest`
(`moveRefactoringHandler.ts:113-231`), from the validated context to the
single `applyEdit` argument. -/
def stageMoveChanges (env : MoveEnv) (forest : List (String × Tree)) (sourceUri : String)
    (destination : MoveDestination) (tree destinationTree : Tree)
    (typeNode : Option SyntaxNode) (declarationNode : SyntaxNode)
    (functionName moduleName destinationModuleName : String) : Changes :=
  let startPosition := (typeNode.map SyntaxNode.startPosition).getD
    declarationNode.startPosition
  let endPosition := declarationNode.endPosition
  let functionText := "\n\n" ++
    ((typeNode.map (fun t => t.text ++ "\n")).getD "") ++ declarationNode.text
  let changes0 : Changes := mapSet (mapSet [] sourceUri []) destination.uri []
  let changes1 := pushEdit changes0 sourceUri (TextEdit.del ⟨startPosition, endPosition⟩)
  let changes2 := pushEdit changes1 destination.uri
    (TextEdit.insert ⟨destinationTree.rootNode.endPosition.row + 1, 0⟩ functionText)
  let references := env.findReferences declarationNode sourceUri
  let sourceHasReference := sourceHasReferenceB sourceUri typeNode declarationNode references
  let referenceUris := dedupKeys (references.map (fun r => r.uri))
  let changes3 := (env.unexposedValueInModule tree functionName).elim changes2
    (fun unexposeEdit => pushEdit changes2 sourceUri unexposeEdit)
  let changes4 := referenceUris.foldl
    (removeImportStep env forest destination moduleName functionName) changes3
  let referenceUris2 := referenceUris.filter (fun u => u != destination.uri)
  let changes5 := if referenceUris2.length > 0 then
      (env.exposeValueInModule destinationTree functionName).elim changes4
        (fun exposeEdit => pushEdit changes4 destination.uri exposeEdit)
    else changes4
  referenceUris2.foldl
    (addImportStep env forest sourceUri sourceHasReference destinationModuleName
      functionName) changes5

/-- `handleMoveRequest` (`moveRefactoringHandler.ts:63-234`).  The result
is the list of `connection.workspace.applyEdit` calls the handler makes,
each carrying its change set; the guarded paths that stage nothing make
no call.  The `&&`-guard on line 107-112 is JS truthiness: the node
objects must be present and the three names must be nonempty strings. -/
def handleMoveRequest (env : MoveEnv) (forest : List (String × Tree))
    (params : MoveParams) : List Changes :=
  match params.destination with
  | none => []
  | some destination =>
    match mapGet forest params.sourceUri, mapGet forest destination.uri with
    | some tree, some destinationTree =>
      let nodeAtPosition := env.getNamedDescendantForPosition tree.rootNode
        params.rangeStart
      let isTypeNode := (nodeAtPosition.parent.map SyntaxNode.type) == some "type_annotation"
      let isDeclarationNode :=
        ((nodeAtPosition.parent.bind SyntaxNode.parent).map SyntaxNode.type) ==
          some "value_declaration"
      let typeNode : Option SyntaxNode :=
        if isDeclarationNode then
          if (((nodeAtPosition.parent.bind SyntaxNode.parent).bind
              SyntaxNode.previousNamedSibling).map SyntaxNode.type) ==
              some "type_annotation" then
            (nodeAtPosition.parent.bind SyntaxNode.parent).bind
              SyntaxNode.previousNamedSibling
          else none
        else if isTypeNode then nodeAtPosition.parent
        else none
      let declarationNode : Option SyntaxNode :=
        if isDeclarationNode then nodeAtPosition.parent.bind SyntaxNode.parent
        else if isTypeNode then nodeAtPosition.parent.bind SyntaxNode.nextNamedSibling
        else none
      let functionName : Option String :=
        if isTypeNode then some nodeAtPosition.text
        else nodeAtPosition.parent.map SyntaxNode.text
      let moduleName := (env.getModuleNameNode tree).map SyntaxNode.text
      let destinationModuleName :=
        (env.getModuleNameNode destinationTree).map SyntaxNode.text
      match declarationNode, functionName, moduleName, destinationModuleName with
      | some declNode, some fn, some modName, some destModName =>
        if fn = "" ∨ modName = "" ∨ destModName = "" then []
        else [stageMoveChanges env forest params.sourceUri destination tree
          destinationTree typeNode declNode fn modName destModName]
      | _, _, _, _ => []
    | _, _ => []

/-- The edit `e` is staged for `k` in the change set. -/
def editAt (chs : Changes) (k : String) (e : TextEdit) : Prop :=
  ∃ es, mapGet chs k = some es ∧ e ∈ es

/-- Change-set growth: keys persist and staged edit lists only grow. -/
def chLe (c1 c2 : Changes) : Prop :=
  ∀ p es, mapGet c1 p = some es → ∃ es', mapGet c2 p = some es' ∧ es ⊆ es'

theorem chLe_refl (c : Changes) : chLe c c :=
  fun _ es h => ⟨es, h, fun _ he => he⟩

theorem chLe_trans {c1 c2 c3 : Changes} (h1 : chLe c1 c2) (h2 : chLe c2 c3) :
    chLe c1 c3 := by
  intro p es h
  obtain ⟨es', h', hsub⟩ := h1 p es h
  obtain ⟨es'', h'', hsub'⟩ := h2 p es' h'
  exact ⟨es'', h'', fun e he => hsub' (hsub he)⟩

theorem editAt_mono {c1 c2 : Changes} (h : chLe c1 c2) {k : String} {e : TextEdit}
    (he : editAt c1 k e) : editAt c2 k e := by
  obtain ⟨es, hes, hmem⟩ := he
  obtain ⟨es', h', hsub⟩ := h k es hes
  exact ⟨es', h', hsub hmem⟩

theorem isSome_mono {c1 c2 : Changes} (h : chLe c1 c2) {k : String}
    (hk : (mapGet c1 k).isSome = true) : (mapGet c2 k).isSome = true := by
  obtain ⟨es, hes⟩ := Option.isSome_iff_exists.mp hk
  obtain ⟨es', h', -⟩ := h k es hes
  rw [h']
  rfl

theorem mapGet_pushEdit (chs : Changes) (k : String) (e : TextEdit) (p : String) :
    mapGet (pushEdit chs k e) p =
      if k = p then (mapGet chs p).map (fun es => es ++ [e]) else mapGet chs p := by
  induction chs with
  | nil =>
    unfold pushEdit
    by_cases h : k = p <;> simp [mapGet, h]
  | cons q rest ih =>
    obtain ⟨k', es'⟩ := q
    unfold pushEdit
    by_cases h1 : k' = k
    · subst h1
      by_cases h2 : k' = p
      · subst h2
        simp [mapGet]
      · rw [if_pos rfl]
        simp [mapGet, h2, fun hh : k' = p => h2 hh]
    · rw [if_neg h1]
      by_cases h2 : k' = p
      · subst h2
        have hk : ¬ k = k' := fun hh => h1 hh.symm
        simp [mapGet, hk]
      · simp only [mapGet, if_neg h2]
        exact ih

theorem chLe_pushEdit (chs : Changes) (k : String) (e : TextEdit) :
    chLe chs (pushEdit chs k e) := by
  intro p es h
  rw [mapGet_pushEdit]
  by_cases hk : k = p
  · rw [if_pos hk, h]
    exact ⟨es ++ [e], rfl, fun x hx => List.mem_append_left _ hx⟩
  · rw [if_neg hk]
    exact ⟨es, h, fun _ hx => hx⟩

theorem editAt_pushEdit {chs : Changes} {k : String} (e : TextEdit)
    (hk : (mapGet chs k).isSome = true) : editAt (pushEdit chs k e) k e := by
  obtain ⟨es, hes⟩ := Option.isSome_iff_exists.mp hk
  refine ⟨es ++ [e], ?_, List.mem_append_right _ (List.mem_singleton.mpr rfl)⟩
  rw [mapGet_pushEdit, if_pos rfl, hes]
  rfl

theorem isSome_pushEdit (chs : Changes) (k : String) (e : TextEdit) {p : String}
    (hp : (mapGet chs p).isSome = true) :
    (mapGet (pushEdit chs k e) p).isSome = true := by
  rw [mapGet_pushEdit]
  by_cases hk : k = p
  · rw [if_pos hk]
    obtain ⟨es, hes⟩ := Option.isSome_iff_exists.mp hp
    rw [hes]
    rfl
  · rw [if_neg hk]
    exact hp

theorem chLe_ensure (chs : Changes) (k : String) :
    chLe chs (if (mapGet chs k).isNone then mapSet chs k [] else chs) := by
  by_cases h : (mapGet chs k).isNone
  · rw [if_pos h]
    intro p es hes
    rw [mapGet_mapSet]
    by_cases hk : k = p
    · subst hk
      rw [hes] at h
      cases h
    · rw [if_neg hk]
      exact ⟨es, hes, fun _ hx => hx⟩
  · rw [if_neg h]
    exact chLe_refl chs

theorem isSome_ensure (chs : Changes) (k : String) :
    (mapGet (if (mapGet chs k).isNone then mapSet chs k [] else chs) k).isSome = true := by
  by_cases h : (mapGet chs k).isNone
  · rw [if_pos h, mapGet_mapSet, if_pos rfl]
    rfl
  · rw [if_neg h]
    rw [Option.isNone_iff_eq_none] at h
    rcases hx : mapGet chs k with _ | v
    · exact absurd hx h
    · rfl

theorem chLe_foldl {f : Changes → String → Changes}
    (hf : ∀ chs u, chLe chs (f chs u)) :
    ∀ (l : List String) (chs : Changes), chLe chs (l.foldl f chs) := by
  intro l
  induction l with
  | nil => intro chs; exact chLe_refl chs
  | cons v vs ih =>
    intro chs
    exact chLe_trans (hf chs v) (ih (f chs v))

theorem foldl_editAt {f : Changes → String → Changes}
    (hf : ∀ chs u, chLe chs (f chs u)) {l : List String} {u : String} (hu : u ∈ l)
    {ed : TextEdit} (hstep : ∀ chs, editAt (f chs u) u ed) :
    ∀ chs, editAt (l.foldl f chs) u ed := by
  induction l with
  | nil => cases hu
  | cons v vs ih =>
    intro chs
    rcases List.mem_cons.mp hu with h | h
    · subst h
      exact editAt_mono (chLe_foldl hf vs (f chs u)) (hstep chs)
    · exact ih h (f chs v)

theorem foldl_editAt_of_isSome {f : Changes → String → Changes}
    (hf : ∀ chs u, chLe chs (f chs u)) {l : List String} {u : String} (hu : u ∈ l)
    {ed : TextEdit}
    (hstep : ∀ chs, (mapGet chs u).isSome = true → editAt (f chs u) u ed) :
    ∀ chs, (mapGet chs u).isSome = true → editAt (l.foldl f chs) u ed := by
  induction l with
  | nil => intro chs; cases hu
  | cons v vs ih =>
    intro chs hsome
    rcases List.mem_cons.mp hu with h | h
    · subst h
      exact editAt_mono (chLe_foldl hf vs (f chs u)) (hstep chs hsome)
    · exact ih h (f chs v) (isSome_mono (hf chs v) hsome)

theorem foldl_isSome {f : Changes → String → Changes}
    (hf : ∀ chs u, chLe chs (f chs u)) {l : List String} {u : String} (hu : u ∈ l)
    (hstep : ∀ chs, (mapGet (f chs u) u).isSome = true) :
    ∀ chs, (mapGet (l.foldl f chs) u).isSome = true := by
  induction l with
  | nil => intro chs; cases hu
  | cons v vs ih =>
    intro chs
    rcases List.mem_cons.mp hu with h | h
    · subst h
      exact isSome_mono (chLe_foldl hf vs (f chs u)) (hstep chs)
    · exact ih h (f chs v)

theorem removeImportStep_chLe (env : MoveEnv) (forest : List (String × Tree))
    (destination : MoveDestination) (modName fn : String) :
    ∀ chs u, chLe chs (removeImportStep env forest destination modName fn chs u) := by
  intro chs u
  have hens := chLe_ensure chs u
  show chLe chs (match mapGet forest u with
    | some refTree =>
      if destination.name != "" then
        match env.removeValueFromImport refTree modName fn with
        | some removeImportEdit =>
          pushEdit (if (mapGet chs u).isNone then mapSet chs u [] else chs) u
            removeImportEdit
        | none => if (mapGet chs u).isNone then mapSet chs u [] else chs
      else if (mapGet chs u).isNone then mapSet chs u [] else chs
    | none => if (mapGet chs u).isNone then mapSet chs u [] else chs)
  generalize hE : (if (mapGet chs u).isNone then mapSet chs u [] else chs) = ens
  rw [hE] at hens
  split
  · split
    · split
      · exact chLe_trans hens (chLe_pushEdit ens u _)
      · exact hens
    · exact hens
  · exact hens

theorem removeImportStep_isSome (env : MoveEnv) (forest : List (String × Tree))
    (destination : MoveDestination) (modName fn : String) :
    ∀ chs u, (mapGet (removeImportStep env forest destination modName fn chs u) u).isSome
      = true := by
  intro chs u
  have hens := isSome_ensure chs u
  show (mapGet (match mapGet forest u with
    | some refTree =>
      if destination.name != "" then
        match env.removeValueFromImport refTree modName fn with
        | some removeImportEdit =>
          pushEdit (if (mapGet chs u).isNone then mapSet chs u [] else chs) u
            removeImportEdit
        | none => if (mapGet chs u).isNone then mapSet chs u [] else chs
      else if (mapGet chs u).isNone then mapSet chs u [] else chs
    | none => if (mapGet chs u).isNone then mapSet chs u [] else chs) u).isSome = true
  generalize hE : (if (mapGet chs u).isNone then mapSet chs u [] else chs) = ens
  rw [hE] at hens
  split
  · split
    · split
      · exact isSome_pushEdit ens u _ hens
      · exact hens
    · exact hens
  · exact hens

theorem removeImportStep_editAt {env : MoveEnv} {forest : List (String × Tree)}
    {destination : MoveDestination} {modName fn : String} {u : String} {refTree : Tree}
    {re : TextEdit} (hft : mapGet forest u = some refTree)
    (hname : destination.name ≠ "")
    (hre : env.removeValueFromImport refTree modName fn = some re) :
    ∀ chs, editAt (removeImportStep env forest destination modName fn chs u) u re := by
  intro chs
  unfold removeImportStep
  simp only [hft]
  rw [if_pos (show (destination.name != "") = true by simpa using hname)]
  simp only [hre]
  exact editAt_pushEdit re (isSome_ensure chs u)

theorem addImportStep_chLe (env : MoveEnv) (forest : List (String × Tree))
    (sourceUri : String) (shr : Bool) (destModName fn : String) :
    ∀ chs u, chLe chs (addImportStep env forest sourceUri shr destModName fn chs u) := by
  intro chs u
  unfold addImportStep
  split
  · exact chLe_refl chs
  · split
    · split
      · exact chLe_pushEdit chs u _
      · exact chLe_refl chs
    · exact chLe_refl chs

theorem addImportStep_editAt {env : MoveEnv} {forest : List (String × Tree)}
    {sourceUri : String} {shr : Bool} {destModName fn : String} {u : String}
    {refTree : Tree} {ie : TextEdit}
    (hskip : (u == sourceUri && !shr) = false)
    (hft : mapGet forest u = some refTree)
    (hie : env.addImport refTree destModName fn = some ie) :
    ∀ chs, (mapGet chs u).isSome = true →
      editAt (addImportStep env forest sourceUri shr destModName fn chs u) u ie := by
  intro chs hsome
  unfold addImportStep
  rw [if_neg (by rw [hskip]; exact Bool.false_ne_true)]
  simp only [hft, hie]
  exact editAt_pushEdit ie hsome

theorem stage_complete_aux
    (env : MoveEnv) (forest : List (String × Tree)) (sourceUri : String)
    (destination : MoveDestination) (tree destinationTree : Tree)
    (fn modName destModName : String)
    (shr : Bool) (uris uris2 : List String)
    (del ins : TextEdit) (c0 c1 c2 c3 c4 c5 final : Changes)
    (hc0 : c0 = mapSet (mapSet [] sourceUri []) destination.uri [])
    (hc1 : c1 = pushEdit c0 sourceUri del)
    (hc2 : c2 = pushEdit c1 destination.uri ins)
    (hc3 : c3 = (env.unexposedValueInModule tree fn).elim c2
      (fun ue => pushEdit c2 sourceUri ue))
    (hc4 : c4 = uris.foldl (removeImportStep env forest destination modName fn) c3)
    (hc5 : c5 = (if uris2.length > 0 then
        (env.exposeValueInModule destinationTree fn).elim c4
          (fun ee => pushEdit c4 destination.uri ee)
      else c4))
    (huris2 : uris2 = uris.filter (fun u => u != destination.uri))
    (hfinal : final =
      uris2.foldl (addImportStep env forest sourceUri shr destModName fn) c5) :
    editAt final sourceUri del ∧
    editAt final destination.uri ins ∧
    (∀ ue, env.unexposedValueInModule tree fn = some ue → editAt final sourceUri ue) ∧
    (∀ refUri ∈ uris, ∀ refTree, mapGet forest refUri = some refTree →
      destination.name ≠ "" →
      ∀ re, env.removeValueFromImport refTree modName fn = some re →
        editAt final refUri re) ∧
    (uris2.length > 0 → ∀ ee, env.exposeValueInModule destinationTree fn = some ee →
      editAt final destination.uri ee) ∧
    (∀ refUri ∈ uris2, (refUri == sourceUri && !shr) = false →
      ∀ refTree, mapGet forest refUri = some refTree →
      ∀ ie, env.addImport refTree destModName fn = some ie →
        editAt final refUri ie) := by
  have hsrc0 : (mapGet c0 sourceUri).isSome = true := by
    rw [hc0, mapGet_mapSet]
    by_cases h : destination.uri = sourceUri
    · rw [if_pos h]
      rfl
    · rw [if_neg h, mapGet_mapSet, if_pos rfl]
      rfl
  have hdst0 : (mapGet c0 destination.uri).isSome = true := by
    rw [hc0, mapGet_mapSet, if_pos rfl]
    rfl
  have le01 : chLe c0 c1 := by
    rw [hc1]
    exact chLe_pushEdit c0 sourceUri del
  have le12 : chLe c1 c2 := by
    rw [hc2]
    exact chLe_pushEdit c1 destination.uri ins
  have le23 : chLe c2 c3 := by
    rw [hc3]
    cases hU : env.unexposedValueInModule tree fn
    · exact chLe_refl c2
    · exact chLe_pushEdit c2 sourceUri _
  have step1_le := removeImportStep_chLe env forest destination modName fn
  have le34 : chLe c3 c4 := by
    rw [hc4]
    exact chLe_foldl step1_le uris c3
  have le45 : chLe c4 c5 := by
    rw [hc5]
    by_cases hlen : uris2.length > 0
    · rw [if_pos hlen]
      cases hE : env.exposeValueInModule destinationTree fn
      · exact chLe_refl c4
      · exact chLe_pushEdit c4 destination.uri _
    · rw [if_neg hlen]
      exact chLe_refl c4
  have step2_le := addImportStep_chLe env forest sourceUri shr destModName fn
  have le5f : chLe c5 final := by
    rw [hfinal]
    exact chLe_foldl step2_le uris2 c5
  have le4f : chLe c4 final := chLe_trans le45 le5f
  have le3f : chLe c3 final := chLe_trans le34 le4f
  have le2f : chLe c2 final := chLe_trans le23 le3f
  have le1f : chLe c1 final := chLe_trans le12 le2f
  refine ⟨?_, ?_, ?_, ?_, ?_, ?_⟩
  · have h1 : editAt c1 sourceUri del := by
      rw [hc1]
      exact editAt_pushEdit del hsrc0
    exact editAt_mono le1f h1
  · have h2 : editAt c2 destination.uri ins := by
      rw [hc2]
      exact editAt_pushEdit ins (isSome_mono le01 hdst0)
    exact editAt_mono le2f h2
  · intro ue hue
    have h3 : editAt c3 sourceUri ue := by
      rw [hc3, hue]
      exact editAt_pushEdit ue (isSome_mono le12 (isSome_mono le01 hsrc0))
    exact editAt_mono le3f h3
  · intro refUri hmem refTree hft hname re hre
    have h4 : editAt c4 refUri re := by
      rw [hc4]
      exact foldl_editAt step1_le hmem (removeImportStep_editAt hft hname hre) c3
    exact editAt_mono le4f h4
  · intro hlen ee hee
    have h5 : editAt c5 destination.uri ee := by
      rw [hc5, if_pos hlen, hee]
      exact editAt_pushEdit ee
        (isSome_mono le34 (isSome_mono le23 (isSome_mono le12
          (isSome_mono le01 hdst0))))
    exact editAt_mono le5f h5
  · intro refUri hmem2 hskip refTree hft ie hie
    have hmem1 : refUri ∈ uris := by
      rw [huris2] at hmem2
      exact (List.mem_filter.mp hmem2).1
    have h4s : (mapGet c4 refUri).isSome = true := by
      rw [hc4]
      exact foldl_isSome step1_le hmem1
        (fun chs => removeImportStep_isSome env forest destination modName fn chs refUri)
        c3
    have h5s : (mapGet c5 refUri).isSome = true := isSome_mono le45 h4s
    rw [hfinal]
    exact foldl_editAt_of_isSome step2_le hmem2
      (addImportStep_editAt hskip hft hie) c5 h5s

/-- Every edit `handleMoveRequest` stages for a validated move lands in the
one change set handed to `applyEdit`: the deletion from the source file,
the insertion into the destination, the unexpose edit when one is
produced, the remove-import edit for every referencing uri whose tree is
in the forest (when the destination name is truthy), the expose edit when
external references remain, and the add-import edit for every remaining
referencing uri that is not the skipped source. -/
def StagedComplete (env : MoveEnv) (forest : List (String × Tree)) (sourceUri : String)
    (destination : MoveDestination) (tree destinationTree : Tree)
    (typeNode : Option SyntaxNode) (declNode : SyntaxNode)
    (fn modName destModName : String) : Prop :=
  let final := stageMoveChanges env forest sourceUri destination tree destinationTree
    typeNode declNode fn modName destModName
  let references := env.findReferences declNode sourceUri
  let shr := sourceHasReferenceB sourceUri typeNode declNode references
  let referenceUris := dedupKeys (references.map (fun r => r.uri))
  let referenceUris2 := referenceUris.filter (fun u => u != destination.uri)
  editAt final sourceUri (TextEdit.del ⟨(typeNode.map SyntaxNode.startPosition).getD
    declNode.startPosition, declNode.endPosition⟩) ∧
  editAt final destination.uri (TextEdit.insert
    ⟨destinationTree.rootNode.endPosition.row + 1, 0⟩
    ("\n\n" ++ ((typeNode.map (fun t => t.text ++ "\n")).getD "") ++
      declNode.text)) ∧
  (∀ ue, env.unexposedValueInModule tree fn = some ue → editAt final sourceUri ue) ∧
  (∀ refUri ∈ referenceUris, ∀ refTree, mapGet forest refUri = some refTree →
    destination.name ≠ "" →
    ∀ re, env.removeValueFromImport refTree modName fn = some re →
      editAt final refUri re) ∧
  (referenceUris2.length > 0 →
    ∀ ee, env.exposeValueInModule destinationTree fn = some ee →
      editAt final destination.uri ee) ∧
  (∀ refUri ∈ referenceUris2, (refUri == sourceUri && !shr) = false →
    ∀ refTree, mapGet forest refUri = some refTree →
    ∀ ie, env.addImport refTree destModName fn = some ie → editAt final refUri ie)

theorem stageMoveChanges_complete (env : MoveEnv) (forest : List (String × Tree))
    (sourceUri : String) (destination : MoveDestination) (tree destinationTree : Tree)
    (typeNode : Option SyntaxNode) (declNode : SyntaxNode)
    (fn modName destModName : String) :
    StagedComplete env forest sourceUri destination tree destinationTree typeNode
      declNode fn modName destModName := by
  unfold StagedComplete
  exact stage_complete_aux env forest sourceUri destination tree destinationTree
    fn modName destModName
    (sourceHasReferenceB sourceUri typeNode declNode
      (env.findReferences declNode sourceUri))
    (dedupKeys ((env.findReferences declNode sourceUri).map (fun r => r.uri)))
    ((dedupKeys ((env.findReferences declNode sourceUri).map (fun r => r.uri))).filter
      (fun u => u != destination.uri))
    (TextEdit.del ⟨(typeNode.map SyntaxNode.startPosition).getD
      declNode.startPosition, declNode.endPosition⟩)
    (TextEdit.insert ⟨destinationTree.rootNode.endPosition.row + 1, 0⟩
      ("\n\n" ++ ((typeNode.map (fun t => t.text ++ "\n")).getD "") ++
        declNode.text))
    _ _ _ _ _ _
    (stageMoveChanges env forest sourceUri destination tree destinationTree
      typeNode declNode fn modName destModName)
    rfl rfl rfl rfl rfl rfl rfl rfl

theorem handleMoveRequest_cases (env : MoveEnv) (forest : List (String × Tree))
    (params : MoveParams) :
    handleMoveRequest env forest params = [] ∨
    ∃ destination tree destinationTree typeNode declNode fn modName destModName,
      handleMoveRequest env forest params =
        [stageMoveChanges env forest params.sourceUri destination tree
          destinationTree typeNode declNode fn modName destModName] := by
  simp only [handleMoveRequest]
  repeat' split
  all_goals first
    | exact Or.inl rfl
    | exact Or.inr ⟨_, _, _, _, _, _, _, _, rfl⟩

/-- C8: `handleMoveRequest` makes at most one `applyEdit` call per request;
the change set it applies is the single staged map, and that map contains
every cross-file edit of the move (source deletion, destination insertion,
unexpose, per-reference import removals, expose, per-reference import
additions), so no partial subset is ever applied separately. -/
theorem C8_move_atomic (env : MoveEnv) (forest : List (String × Tree))
    (params : MoveParams) :
    (handleMoveRequest env forest params).length ≤ 1 ∧
    (∀ chs ∈ handleMoveRequest env forest params,
      ∃ destination tree destinationTree typeNode declNode fn modName destModName,
        chs = stageMoveChanges env forest params.sourceUri destination tree
          destinationTree typeNode declNode fn modName destModName) ∧
    (∀ (sourceUri : String) (destination : MoveDestination)
        (tree destinationTree : Tree) (typeNode : Option SyntaxNode)
        (declNode : SyntaxNode) (fn modName destModName : String),
      StagedComplete env forest sourceUri destination tree destinationTree
        typeNode declNode fn modName destModName) := by
  refine ⟨?_, ?_, ?_⟩
  · obtain hC | ⟨d, t, dt, tn, dn, fn, mn, dmn, hC⟩ :=
      handleMoveRequest_cases env forest params
    · rw [hC]
      exact Nat.zero_le 1
    · rw [hC]
      exact Nat.le_refl 1
  · intro chs hmem
    obtain hC | ⟨d, t, dt, tn, dn, fn, mn, dmn, hC⟩ :=
      handleMoveRequest_cases env forest params
    · rw [hC] at hmem
      exact absurd hmem (List.not_mem_nil chs)
    · rw [hC] at hmem
      exact ⟨d, t, dt, tn, dn, fn, mn, dmn, List.eq_of_mem_singleton hmem⟩
  · intro sourceUri destination tree destinationTree typeNode declNode fn modName
      destModName
    exact stageMoveChanges_complete env forest sourceUri destination tree
      destinationTree typeNode declNode fn modName destModName

/-- Witness for `C10_move_destinations` at a concrete input: one writeable
non-source tree yields exactly its uri. -/
theorem C10_move_destinations_witness :
    (handleGetMoveDestinationsRequest (fun s => s) "root"
        [⟨"u1", true⟩] "u2").destinations.map (fun d => d.uri) =
      (([⟨"u1", true⟩] : List TreeInfo).filter
        (fun tree => tree.writeable && (tree.uri != "u2"))).map (fun tree => tree.uri) :=
  (C10_move_destinations (fun s => s) "root" [⟨"u1", true⟩] "u2").1

/-- Witness for `C8_move_atomic` at a concrete input: a request without a
destination applies no edit set. -/
theorem C8_move_atomic_witness :
    (handleMoveRequest
      ⟨fun n _ => n, fun _ => none, fun _ _ => [], fun _ _ => none,
        fun _ _ _ => none, fun _ _ => none, fun _ _ _ => none⟩
      [] ⟨"file:///A.elm", none, ⟨0, 0⟩⟩).length ≤ 1 :=
  (C8_move_atomic
    ⟨fun n _ => n, fun _ => none, fun _ _ => [], fun _ _ => none,
      fun _ _ _ => none, fun _ _ => none, fun _ _ _ => none⟩
    [] ⟨"file:///A.elm", none, ⟨0, 0⟩⟩).1
